import Mathlib

/-!
Verification development for the sfv repository (signal-flow visualizer).

The whole repository is one visual-mapping routine,
sfv/visualizers/linearvisualizer.py: the function LinearVisualizer.visualize
together with its helpers update_edges, update_single_label_name and
update_single_label_activity.  We give a shallow embedding of that module:

* real (numpy float) arithmetic is modelled over the rationals;
* numpy reductions (max, min, percentile) are modelled exactly, with the
  empty-array and out-of-range failures they raise modelled through Except;
* Python exceptions (KeyError, ValueError, TypeError, RuntimeError) become
  an Err type, and every fallible operation returns Except Err;
* host-toolkit collaborators that the module merely calls (text bounding
  boxes, defaults of a freshly constructed text label, and the
  transcendental log10) are fields of a Host structure, as in section 6 of
  the specification;
* the mutable Network (dict of nodes, dict of edges keyed by
  (source, target), dict of labels) is modelled by association lists, and
  the in-place mutation of the call becomes a function from the old Network
  to an Except of the new one.
-/

namespace SFV

attribute [local semireducible] Rat.add Rat.sub Rat.mul Rat.inv

/-- Association-list lookup, first match wins (a Python dict read). -/
def aget {κ β : Type} [DecidableEq κ] (k : κ) : List (κ × β) → Option β
  | [] => Option.none
  | (k₁, v) :: rest => if k = k₁ then Option.some v else aget k rest

/-- Association-list write: replace the value at an existing key in place,
append a fresh key at the end (a Python dict write, order preserving). -/
def aset {κ β : Type} [DecidableEq κ] (k : κ) (v : β) : List (κ × β) → List (κ × β)
  | [] => [(k, v)]
  | (k₁, v₁) :: rest => if k = k₁ then (k₁, v) :: rest else (k₁, v₁) :: aset k v rest

/-- Association-list removal of a key (a Python dict del). -/
def aremove {κ β : Type} [DecidableEq κ] (k : κ) (l : List (κ × β)) : List (κ × β) :=
  l.filter (fun p => decide (p.1 ≠ k))

/-- numpy clip: maximum with the lower bound first, minimum with the upper
bound second (so a lower bound above the upper bound yields the upper). -/
def npClip (x lo hi : ℚ) : ℚ := min (max x lo) hi

/-- Floor of a rational computed from its reduced fraction; the
denominator is positive, so integer division rounds toward minus
infinity.  Unlike the Int.floor of the order structure this reduces
inside the kernel. -/
def qfloor (x : ℚ) : ℤ := x.num / x.den

/-- Truncation toward zero, the behaviour of a C float-to-integer cast. -/
def truncQ (x : ℚ) : ℤ := if 0 ≤ x then qfloor x else -(qfloor (-x))

/-- The numpy int32 cast of a float: truncation toward zero with 32-bit
two's-complement wrap-around. -/
def npInt32 (x : ℚ) : ℤ := (truncQ x + 2 ^ 31) % 2 ^ 32 - 2 ^ 31

/-- Python exceptions raised by the module. -/
inductive Err where
  | valueError (msg : String)
  | typeError (msg : String)
  | keyError (key : String)
  | runtimeError (msg : String)
  deriving DecidableEq, Repr

instance instDecidableEqExceptSFV {ε α : Type} [DecidableEq ε] [DecidableEq α] :
    DecidableEq (Except ε α) := fun x y =>
  match x, y with
  | Except.ok a, Except.ok b =>
    if h : a = b then Decidable.isTrue (by rw [h])
    else Decidable.isFalse (fun hh => h (Except.ok.inj hh))
  | Except.error a, Except.error b =>
    if h : a = b then Decidable.isTrue (by rw [h])
    else Decidable.isFalse (fun hh => h (Except.error.inj hh))
  | Except.ok _, Except.error _ => Decidable.isFalse (fun hh => Except.noConfusion hh)
  | Except.error _, Except.ok _ => Decidable.isFalse (fun hh => Except.noConfusion hh)

/-- numpy max reduction over a nonempty array, as a left fold. -/
def foldMax (x : ℚ) (xs : List ℚ) : ℚ := xs.foldl max x

/-- numpy min reduction over a nonempty array, as a left fold. -/
def foldMin (x : ℚ) (xs : List ℚ) : ℚ := xs.foldl min x

/-- numpy ndarray.max(): the greatest entry, a ValueError on an empty array. -/
def npMaxE : List ℚ → Except Err ℚ
  | [] => Except.error
      (Err.valueError "zero-size array to reduction operation maximum which has no identity")
  | x :: xs => Except.ok (foldMax x xs)

/-- numpy ndarray.min(): the least entry, a ValueError on an empty array. -/
def npMinE : List ℚ → Except Err ℚ
  | [] => Except.error
      (Err.valueError "zero-size array to reduction operation minimum which has no identity")
  | x :: xs => Except.ok (foldMin x xs)

/-- The data, sorted ascending (model of the sort behind numpy percentile). -/
def sortedL (l : List ℚ) : List ℚ := l.insertionSort (· ≤ ·)

/-- Virtual fractional index p/100 * (n-1) of the linear percentile method. -/
def pctIdx (l : List ℚ) (p : ℚ) : ℚ := p / 100 * (((sortedL l).length : ℚ) - 1)

/-- Lower order-statistic index of the percentile interpolation. -/
def pctK (l : List ℚ) (p : ℚ) : ℕ := (qfloor (pctIdx l p)).toNat

/-- Upper order-statistic index, clamped into range. -/
def pctJ (l : List ℚ) (p : ℚ) : ℕ := min (pctK l p + 1) ((sortedL l).length - 1)

/-- Fractional part of the virtual index. -/
def pctGamma (l : List ℚ) (p : ℚ) : ℚ := pctIdx l p - ((qfloor (pctIdx l p) : ℤ) : ℚ)

/-- The interpolated percentile value. -/
def pctVal (l : List ℚ) (p : ℚ) : ℚ :=
  (sortedL l).getD (pctK l p) 0 +
    pctGamma l p * ((sortedL l).getD (pctJ l p) 0 - (sortedL l).getD (pctK l p) 0)

/-- numpy percentile with the default linear interpolation method: sort the
data, take the virtual index p/100 * (n-1) and interpolate linearly between
the neighbouring order statistics.  Fails on an empty array or a percentile
outside [0, 100], as numpy does. -/
def npPercentileE (l : List ℚ) (p : ℚ) : Except Err ℚ :=
  if l = [] then
    Except.error (Err.valueError "zero-size array in percentile")
  else if ¬ (0 ≤ p ∧ p ≤ 100) then
    Except.error (Err.valueError "Percentiles must be in the range [0, 100]")
  else
    Except.ok (pctVal l p)

/-! ### Python percent-formatting

The module formats activity values with the percent operator on strings
(fmt_act, default "%.5f"), and on the existing-label path re-applies the
operator to the already-formatted string.  We model the operator: a format
string is parsed into literal characters, literal percents ("%%") and
argument-consuming conversion specifiers; applying it to one numeric
argument succeeds exactly when there is exactly one specifier (otherwise
Python raises TypeError, and ValueError on a string ending inside a
specifier).  The decimal rendering of the number abstracts CPython float
formatting: conversions d, i, u truncate toward zero, every other
conversion is rendered fixed-point with the parsed precision (default 6).
The rendered digits never contain a percent character, which is the only
fact about them the theorems below depend on. -/

/-- Integer powers of ten (a kernel-computable power for rendering). -/
def pow10 : ℕ → ℤ
  | 0 => 1
  | p + 1 => 10 * pow10 p

/-- A rational from an integer (kernel-computable cast). -/
def intToQ (z : ℤ) : ℚ := mkRat z 1

/-- Python str.upper: uppercase the characters (the identifiers involved
are ASCII). -/
def strUpper (s : String) : String := String.mk (s.data.map Char.toUpper)

/-- Tokens of a parsed Python percent-format string. -/
inductive FmtTok where
  | lit (c : Char)
  | pctlit
  | spec (body : List Char) (conv : Char)
  deriving DecidableEq, Repr

/-- Characters allowed inside a conversion specifier before the conversion
type: flags, width, precision. -/
def specBodyChar (c : Char) : Bool :=
  c = '-' || c = '+' || c = ' ' || c = '#' || c.isDigit || c = '.'

mutual

/-- Parse a percent-format string into tokens; none on a string that ends
inside a specifier (Python: ValueError incomplete format). -/
def parseFmt : List Char → Option (List FmtTok)
  | [] => Option.some []
  | '%' :: rest => parseSpec [] rest
  | c :: rest => (parseFmt rest).map (fun ts => FmtTok.lit c :: ts)

/-- Parse the remainder of one conversion specifier. -/
def parseSpec (body : List Char) : List Char → Option (List FmtTok)
  | [] => Option.none
  | c :: rest =>
    if c = '%' then (parseFmt rest).map (fun ts => FmtTok.pctlit :: ts)
    else if specBodyChar c then parseSpec (body ++ [c]) rest
    else (parseFmt rest).map (fun ts => FmtTok.spec body c :: ts)

end

/-- Number of argument-consuming conversion specifiers. -/
def countSpecs (ts : List FmtTok) : ℕ :=
  ts.countP (fun t => match t with | FmtTok.spec _ _ => true | _ => false)

/-- Numeric value of a digit run. -/
def digitsToNat (ds : List Char) : ℕ :=
  ds.foldl (fun n c => 10 * n + (c.toNat - '0'.toNat)) 0

/-- Precision parsed from a specifier body (digits after the dot). -/
def specPrec (body : List Char) : Option ℕ :=
  match body.dropWhile (fun c => decide (c ≠ '.')) with
  | [] => Option.none
  | _ :: ds => Option.some (digitsToNat (ds.takeWhile Char.isDigit))

/-- Left-pad a digit string with zeros to a given width. -/
def natPad (p : ℕ) (s : String) : String :=
  String.mk (List.replicate (p - s.length) '0') ++ s

/-- Fixed-point decimal rendering with p fractional digits (abstraction of
CPython float formatting; rounding differences are immaterial here). -/
def formatFixed (p : ℕ) (x : ℚ) : String :=
  let n : ℤ := qfloor (|x| * intToQ (pow10 p) + 1 / 2)
  let ip := n / pow10 p
  let fp := n % pow10 p
  (if x < 0 then "-" else "") ++ toString ip.toNat ++
    (if p = 0 then "" else "." ++ natPad p (toString fp.toNat))

/-- Render one conversion specifier applied to a number. -/
def renderSpec (body : List Char) (conv : Char) (x : ℚ) : String :=
  if conv = 'd' ∨ conv = 'i' ∨ conv = 'u' then
    (if x < 0 then "-" else "") ++ toString (truncQ |x|).toNat
  else
    formatFixed ((specPrec body).getD 6) x

/-- Render a token list applied to one numeric argument. -/
def renderToks (ts : List FmtTok) (x : ℚ) : String :=
  String.mk (ts.foldr (fun t acc =>
    match t with
    | FmtTok.lit c => c :: acc
    | FmtTok.pctlit => '%' :: acc
    | FmtTok.spec body conv => (renderSpec body conv x).toList ++ acc) [])

/-- The Python percent operator, one numeric right operand: succeeds with
the rendered string exactly when the format holds exactly one
argument-consuming specifier. -/
def pyMod (fmt : String) (x : ℚ) : Except Err String :=
  match parseFmt fmt.toList with
  | Option.none => Except.error (Err.valueError "incomplete format")
  | Option.some ts =>
    match countSpecs ts with
    | 0 => Except.error (Err.typeError "not all arguments converted during string formatting")
    | 1 => Except.ok (renderToks ts x)
    | _ + 2 => Except.error (Err.typeError "not enough arguments for format string")

/-! ### Graphics data model

Nodes, edges and labels of the host toolkit (nezzle over Qt), with the
attributes the module reads or writes.  The Network is the caller-owned
mutable object: dicts of nodes, of edges keyed by (source, target), and of
labels keyed by label identifier, modelled as association lists. -/

/-- Arrowhead polarity: TRIANGLE is the positive head, HAMMER the negative. -/
inductive HeadKind where
  | pos
  | neg
  deriving DecidableEq, Repr

/-- An arrowhead object: polarity class plus geometric parameters. -/
structure Head where
  kind : HeadKind
  width : ℚ
  height : ℚ
  offset : ℚ
  deriving DecidableEq, Repr

/-- A QColor: RGBA channels. -/
structure QColorT where
  r : ℤ
  g : ℤ
  b : ℤ
  a : ℤ
  deriving DecidableEq, Repr

/-- A QFont: family and point size. -/
structure QFontT where
  family : String
  pointSize : ℤ
  deriving DecidableEq, Repr

def qtBlack : QColorT := ⟨0, 0, 0, 255⟩

def qtWhite : QColorT := ⟨255, 255, 255, 255⟩

/-- QColor.lightness earlier: HSL lightness, the midpoint of the extreme
RGB channels. -/
def qLightness (c : QColorT) : ℤ :=
  (max c.r (max c.g c.b) + min c.r (min c.g c.b)) / 2

structure Node where
  iden : String
  name : String
  width : ℚ
  height : ℚ
  fillColor : QColorT
  borderWidth : ℚ
  borderColor : QColorT
  deriving DecidableEq, Repr

structure Label where
  iden : String
  owner : String
  text : String
  font : QFontT
  fontBold : Bool
  textColor : QColorT
  pos : ℚ × ℚ
  deriving DecidableEq, Repr

structure Edge where
  head : Head
  width : ℚ
  fillColor : QColorT
  deriving DecidableEq, Repr

abbrev Labels := List (String × Label)

abbrev Edges := List ((String × String) × Edge)

structure Net where
  nodes : List (String × Node)
  edges : Edges
  labels : Labels
  deriving DecidableEq, Repr

/-- Host-toolkit collaborators the module calls but does not own (section 6
of the specification): text bounding boxes (depending on text, font and
boldness), the attribute defaults of a freshly constructed TextLabel, and
the transcendental base-10 logarithm of numpy applied to positive values. -/
structure Host where
  boundingRect : String → QFontT → Bool → ℚ × ℚ
  freshFont : QFontT
  freshBold : Bool
  freshColor : QColorT
  freshPos : ℚ × ℚ
  log10 : ℚ → ℚ

/-- The color_up / color_dn argument as Python sees it: the default None,
a QColor, a numpy array, or any other object carrying only a truth value. -/
inductive ColorArg where
  | noneArg
  | qcolor (r g b : ℤ)
  | ndarray (vals : List ℚ)
  | other (truthy : Bool)
  deriving DecidableEq, Repr

/-- Python truthiness of a color argument, as evaluated by the if-not test:
None is falsy, a QColor is truthy, a one-element array takes the truth of
its entry, a multi-element array raises ValueError (ambiguous truth value),
an empty array is falsy. -/
def truthiness : ColorArg → Except Err Bool
  | ColorArg.noneArg => Except.ok false
  | ColorArg.qcolor _ _ _ => Except.ok true
  | ColorArg.ndarray [] => Except.ok false
  | ColorArg.ndarray [v] => Except.ok (decide (v ≠ 0))
  | ColorArg.ndarray (_ :: _ :: _) =>
      Except.error (Err.valueError "The truth value of an array with more than one element is ambiguous. Use a.any() or a.all()")
  | ColorArg.other t => Except.ok t

/-- Resolution of color_up / color_dn at the top of visualize: falsy gives
the default triple, a QColor is decomposed into its RGB channels, anything
else raises ValueError. -/
def resolveColor (arg : ColorArg) (dflt : ℤ × ℤ × ℤ) (which : String) :
    Except Err (ℤ × ℤ × ℤ) := do
  let t ← truthiness arg
  if ¬ t then
    pure dflt
  else
    match arg with
    | ColorArg.qcolor r g b => pure (r, g, b)
    | _ =>
      Except.error (Err.valueError (which ++ " should be 3-dimensional np.ndarray or QtGui.QColor"))

/-- The keyword arguments of visualize with their source defaults. -/
structure Opts where
  color_up : ColorArg := ColorArg.noneArg
  color_dn : ColorArg := ColorArg.noneArg
  lw_min : ℚ := 1
  lw_max : ℚ := 10
  pct_edge : ℚ := 90
  show_label : Bool := true
  show_act : Bool := true
  pct_act : ℚ := 50
  fmt_act : String := "%.5f"
  fix_node_size : Bool := false
  fix_act_label : Bool := false
  font : Option QFontT := Option.none

abbrev Mat (n : ℕ) := Fin n → Fin n → ℚ

/-! ### The edge-update pass -/

/-- A new arrowhead of the given polarity carrying the geometric
parameters (width, height, offset) of the previous head. -/
def mkHead (k : HeadKind) (old : Head) : Head := ⟨k, old.width, old.height, old.offset⟩

/-- Arrowhead and edge color chosen from the flow value f and, when the
flow is zero, from the adjacency value a; both zero is the abnormal-logic
RuntimeError of the source. -/
def headColorOf (f a : ℚ) (old : Head) : Except Err (Head × QColorT) :=
  if 0 < f then Except.ok (mkHead HeadKind.pos old, ⟨255, 10, 10, 70⟩)
  else if f < 0 then Except.ok (mkHead HeadKind.neg old, ⟨10, 10, 255, 70⟩)
  else if 0 < a then Except.ok (mkHead HeadKind.pos old, ⟨100, 100, 100, 100⟩)
  else if a < 0 then Except.ok (mkHead HeadKind.neg old, ⟨100, 100, 100, 100⟩)
  else Except.error (Err.runtimeError "The logic is abnormal.")

/-- Width of an edge with nonzero flow in the non-degenerate range case, as
a function of the log-flow: clip into [flow_min, flow_thr], interpolate
from [flow_min, flow_max] into [lw_min, lw_max]. -/
def edgeWidthOfLog (logf flow_min flow_max flow_thr lw_min lw_max : ℚ) : ℚ :=
  let log_f := npClip logf flow_min flow_thr
  (log_f - flow_min) / (flow_max - flow_min) * (lw_max - lw_min) + lw_min

/-- Edge width: lw_min for zero flow, the midpoint of the width interval
when the log-flow range is degenerate, otherwise interpolated. -/
def widthOf (log10 : ℚ → ℚ) (f flow_min flow_max flow_thr lw_min lw_max : ℚ) : ℚ :=
  if f = 0 then lw_min
  else if flow_max - flow_min = 0 then 1 / 2 * (lw_max + lw_min)
  else edgeWidthOfLog (log10 |f|) flow_min flow_max flow_thr lw_min lw_max

/-- Nonzero positions of a matrix in row-major order (numpy nonzero). -/
def nonzeroPairs {n : ℕ} (M : Mat n) : List (Fin n × Fin n) :=
  ((List.finRange n) ×ˢ (List.finRange n)).filter (fun p => decide (M p.1 p.2 ≠ 0))

/-- log10 of the absolute values of the nonzero entries of F. -/
def logFlows (host : Host) {n : ℕ} (F : Mat n) : List ℚ :=
  (nonzeroPairs F).map (fun p => host.log10 |F p.1 p.2|)

/-- Lookup in the index-to-name dict, a KeyError when absent. -/
def i2nGetE {n : ℕ} (i2n : List (Fin n × String)) (i : Fin n) : Except Err String :=
  match aget i i2n with
  | Option.some s => Except.ok s
  | Option.none => Except.error (Err.keyError (toString i.val))

/-- Lookup of the edge graphics object at (source, target), a KeyError when
the Network has no such edge. -/
def egetE (k : String × String) (edges : Edges) : Except Err Edge :=
  match aget k edges with
  | Option.some e => Except.ok e
  | Option.none => Except.error (Err.keyError (k.1 ++ " -> " ++ k.2))

/-- The new value of an edge after one iteration of the update_edges loop:
the freshly chosen head and fill color, and the width computed by widthOf
from the flow entry and the log-flow statistics (flow_min, flow_max,
flow_thr). -/
def edgeUpdate (host : Host) {n : ℕ} (F : Mat n) (stats : ℚ × ℚ × ℚ)
    (lw_min lw_max : ℚ) (p : Fin n × Fin n) (e : Edge) (hc : Head × QColorT) : Edge :=
  { e with
      head := hc.1
      fillColor := hc.2
      width := widthOf host.log10 (F p.1 p.2) stats.1 stats.2.1 stats.2.2 lw_min lw_max }

/-- The loop body of update_edges at one nonzero adjacency position
(i, j): resolve target i2n[i] and source i2n[j], read the edge, choose the
arrowhead and fill color, compute the width, write the edge back. -/
def processEdgePair (host : Host) {n : ℕ} (A F : Mat n) (i2n : List (Fin n × String))
    (stats : ℚ × ℚ × ℚ) (lw_min lw_max : ℚ) (edges : Edges) (p : Fin n × Fin n) :
    Except Err Edges := do
  let tgt ← i2nGetE i2n p.1
  let src ← i2nGetE i2n p.2
  let f := F p.1 p.2
  let e ← egetE (src, tgt) edges
  let hc ← headColorOf f (A p.1 p.2) e.head
  pure (aset (src, tgt) (edgeUpdate host F stats lw_min lw_max p e hc) edges)

/-- Sequential processing of the nonzero adjacency positions. -/
def edgesFold (host : Host) {n : ℕ} (A F : Mat n) (i2n : List (Fin n × String))
    (stats : ℚ × ℚ × ℚ) (lw_min lw_max : ℚ) :
    List (Fin n × Fin n) → Edges → Except Err Edges
  | [], es => Except.ok es
  | p :: ps, es =>
    processEdgePair host A F i2n stats lw_min lw_max es p >>= fun es₁ =>
      edgesFold host A F i2n stats lw_min lw_max ps es₁

/-- The log-flow statistics computed at the top of update_edges, in source
order: max first, then min, then the pct_edge percentile; returned as
(flow_min, flow_max, flow_thr). -/
def flowStats (host : Host) {n : ℕ} (F : Mat n) (pct_edge : ℚ) :
    Except Err (ℚ × ℚ × ℚ) := do
  let mx ← npMaxE (logFlows host F)
  let mn ← npMinE (logFlows host F)
  let thr ← npPercentileE (logFlows host F) pct_edge
  pure (mn, mx, thr)

/-- The function update_edges of the source. -/
def update_edges (host : Host) {n : ℕ} (net : Net) (A F : Mat n)
    (i2n : List (Fin n × String)) (pct_edge lw_min lw_max : ℚ) : Except Err Net := do
  let stats ← flowStats host F pct_edge
  let es ← edgesFold host A F i2n stats lw_min lw_max (nonzeroPairs A) net.edges
  pure { net with edges := es }

/-! ### The node and label pass -/

/-- Normalized activity intensity of node index i: |acts i| / thr clipped
into [0, 1] (the arr_t array of the source). -/
def arrT {n : ℕ} (acts : Fin n → ℚ) (thr : ℚ) (i : Fin n) : ℚ :=
  npClip (|acts i| / thr) 0 1

/-- Node fill color: white plus t times (target minus white) channelwise,
target chosen by the sign of the activity (the elif act <= 0 arm of the
source is exhaustive over exact numbers), cast to int32, alpha 255. -/
def fillFormula (color_up color_dn : ℤ × ℤ × ℤ) (act t : ℚ) : QColorT :=
  let tgtc := if 0 < act then color_up else color_dn
  ⟨npInt32 (255 + t * (intToQ tgtc.1 - 255)),
   npInt32 (255 + t * (intToQ tgtc.2.1 - 255)),
   npInt32 (255 + t * (intToQ tgtc.2.2 - 255)), 255⟩

/-- The function update_single_label_name of the source: read the name
label (KeyError when absent), set font, switch text color and boldness on
the fill lightness, center the label on its bounding box, and unless
fix_node_size resize the node to 1.1 times that box. -/
def update_single_label_name (host : Host) (labels : Labels) (node : Node)
    (fix_node_size : Bool) (font : QFontT) : Except Err (Labels × Node) := do
  let label_name ← (match aget node.name labels with
    | Option.some lab => Except.ok lab
    | Option.none => Except.error (Err.keyError node.name))
  let lightness := qLightness node.fillColor
  let lab := { label_name with textColor := qtBlack, font := font }
  let lab :=
    if lightness < 200 then { lab with textColor := qtWhite, fontBold := true }
    else { lab with textColor := qtBlack, fontBold := false }
  let rect := host.boundingRect lab.text lab.font lab.fontBold
  let lab := { lab with pos := (-(rect.1) / 2, -(rect.2) / 2) }
  let labels₁ := aset node.name lab labels
  let node₁ :=
    if ¬ fix_node_size then { node with width := 11 / 10 * rect.1, height := 11 / 10 * rect.2 }
    else node
  pure (labels₁, node₁)

/-- The function update_single_label_activity of the source.  The label
key is the uppercased node identifier with suffix _act.  The format is
applied to the activity first (this can raise); a fresh TextLabel is
created when the key is absent, otherwise the percent operator is applied
again to the already-formatted text (this raises TypeError for ordinary
formats).  Unless fix_act_label, font, text color and position are reset.
In-place mutation of the stored label and add_label of a fresh one both
amount to writing the label at its key. -/
def update_single_label_activity (host : Host) (labels : Labels) (node : Node)
    (activity : ℚ) (fix_act_label : Bool) (fmt : String) (font : QFontT) :
    Except Err Labels := do
  let iden := strUpper node.iden ++ "_act"
  let str_x ← pyMod fmt activity
  let lab₀ ← (match aget iden labels with
    | Option.none =>
      pure { iden := iden, owner := node.iden, text := str_x,
             font := host.freshFont, fontBold := host.freshBold,
             textColor := host.freshColor, pos := host.freshPos : Label }
    | Option.some lab => do
      let t ← pyMod str_x activity
      pure { lab with text := t })
  let lab₁ :=
    if ¬ fix_act_label then
      let lab := { lab₀ with font := font, textColor := ⟨20, 20, 20, 255⟩ }
      let rect := host.boundingRect lab.text lab.font lab.fontBold
      { lab with pos := (node.width / 2 + 1 / 2, -(rect.2) / 2) }
    else lab₀
  pure (aset iden lab₁ labels)

/-- Everything the per-node part of the visualize loop needs. -/
structure NodeCtx (n : ℕ) where
  host : Host
  n2i : List (String × Fin n)
  acts : Fin n → ℚ
  thr : ℚ
  color_up : ℤ × ℤ × ℤ
  color_dn : ℤ × ℤ × ℤ
  opts : Opts
  font : QFontT

/-- The body of the per-node loop of visualize: resolve the index of the
node (KeyError when absent from n2i), reset the size unless fix_node_size,
set fill and border, then the name label when show_label, then the activity
label when show_act, else remove the activity label when present. -/
def processNode {n : ℕ} (ctx : NodeCtx n) (labels : Labels) (iden : String) (node : Node) :
    Except Err (Node × Labels) := do
  let idx ← (match aget iden ctx.n2i with
    | Option.some i => Except.ok i
    | Option.none => Except.error (Err.keyError iden))
  let node :=
    if ¬ ctx.opts.fix_node_size then { node with width := 20, height := 20 } else node
  let act := ctx.acts idx
  let t := arrT ctx.acts ctx.thr idx
  let fill := fillFormula ctx.color_up ctx.color_dn act t
  let node := { node with fillColor := fill, borderWidth := 2, borderColor := ⟨40, 40, 40, 255⟩ }
  let ln ←
    if ctx.opts.show_label then
      update_single_label_name ctx.host labels node ctx.opts.fix_node_size ctx.font
    else pure (labels, node)
  let labels := ln.1
  let node := ln.2
  let labels ←
    if ctx.opts.show_act then
      update_single_label_activity ctx.host labels node act ctx.opts.fix_act_label
        ctx.opts.fmt_act ctx.font
    else
      pure (match aget (strUpper iden ++ "_act") labels with
        | Option.some _ => aremove (strUpper iden ++ "_act") labels
        | Option.none => labels)
  pure (node, labels)

/-- Sequential processing of the Network's node mapping, threading the
label mapping. -/
def nodesPass {n : ℕ} (ctx : NodeCtx n) :
    List (String × Node) → Labels → Except Err (List (String × Node) × Labels)
  | [], labels => Except.ok ([], labels)
  | (iden, node) :: rest, labels =>
    processNode ctx labels iden node >>= fun nl =>
      nodesPass ctx rest nl.2 >>= fun rl =>
        Except.ok ((iden, nl.1) :: rl.1, rl.2)

/-- The index-to-name dict built at the top of visualize by inverting n2i;
the dict comprehension lets the last of duplicate indices win, which the
reversed association list reproduces under first-match lookup. -/
def mkI2n {n : ℕ} (n2i : List (String × Fin n)) : List (Fin n × String) :=
  (n2i.map (fun p => (p.2, p.1))).reverse

/-- The activity color-scale threshold: the pct_act percentile of the
absolute activities, a zero result replaced by 1. -/
def actThrE {n : ℕ} (acts : Fin n → ℚ) (pct_act : ℚ) : Except Err ℚ := do
  let thr ← npPercentileE ((List.finRange n).map (fun i => |acts i|)) pct_act
  pure (if thr = 0 then 1 else thr)

/-- The font used for both label kinds: the font argument when given,
else Arial 10 points. -/
def fontOf (opts : Opts) : QFontT :=
  match opts.font with
  | Option.some f => f
  | Option.none => ⟨"Arial", 10⟩

/-- The method LinearVisualizer.visualize of the source: invert n2i,
resolve the colors (default red up, blue dn), default the font, compute
the activity threshold, run the node-and-label pass, then the edge pass.
The in-place mutation of the Network becomes the returned Network; any
Python exception escapes as an error. -/
def visualize (host : Host) {n : ℕ} (net : Net) (F : Mat n) (acts : Fin n → ℚ) (A : Mat n)
    (n2i : List (String × Fin n)) (opts : Opts) : Except Err Net := do
  let i2n : List (Fin n × String) := mkI2n n2i
  let color_up ← resolveColor opts.color_up (255, 0, 0) "color_up"
  let color_dn ← resolveColor opts.color_dn (0, 0, 255) "color_dn"
  let font := fontOf opts
  let thr ← actThrE acts opts.pct_act
  let ctx : NodeCtx n := ⟨host, n2i, acts, thr, color_up, color_dn, opts, font⟩
  let nl ← nodesPass ctx net.nodes net.labels
  update_edges host { net with nodes := nl.1, labels := nl.2 } A F i2n
    opts.pct_edge opts.lw_min opts.lw_max

/-! ### Concrete example inputs used by witnesses -/

def exHost : Host :=
  ⟨fun _ _ _ => (10, 4), ⟨"Fresh", 9⟩, false, ⟨1, 2, 3, 255⟩, (0, 0), fun _ => 7⟩

def exNodeA : Node := ⟨"A", "A", 30, 30, ⟨50, 50, 50, 255⟩, 1, ⟨0, 0, 0, 255⟩⟩

def exNodeB : Node := ⟨"B", "B", 30, 30, ⟨50, 50, 50, 255⟩, 1, ⟨0, 0, 0, 255⟩⟩

def exEdgeBA : Edge := ⟨⟨HeadKind.neg, 3, 4, 5⟩, 2, ⟨9, 9, 9, 9⟩⟩

def exNet : Net :=
  { nodes := [("A", exNodeA), ("B", exNodeB)],
    edges := [(("B", "A"), exEdgeBA)],
    labels := [] }

def exA : Mat 2 := fun i j => if i.val = 0 ∧ j.val = 1 then 1 else 0

def exF : Mat 2 := fun i j => if i.val = 0 ∧ j.val = 1 then 5 else 0

def exActs : Fin 2 → ℚ := fun i => if i.val = 0 then 1 / 10 else -(2 / 10)

def exN2i : List (String × Fin 2) := [("A", 0), ("B", 1)]

def exOpts : Opts := { show_label := false, show_act := false }

def exActs0 : Fin 2 → ℚ := fun _ => 0

def exResult0 : Net :=
  (visualize exHost exNet exF exActs0 exA exN2i exOpts).toOption.getD exNet

def exResult : Net :=
  (visualize exHost exNet exF exActs exA exN2i exOpts).toOption.getD exNet

/-! ### Claims C7 and C1 -/

def exLab0 : Label := ⟨"A_act", "a", "x", ⟨"Comic", 12⟩, false, ⟨5, 5, 5, 255⟩, (1, 2)⟩

def exNodeC : Node := ⟨"a", "nm", 30, 30, ⟨0, 0, 0, 255⟩, 1, ⟨0, 0, 0, 255⟩⟩

def exNetC : Net := { nodes := [("a", exNodeC)], edges := [], labels := [("A_act", exLab0)] }

def exA1 : Mat 1 := fun _ _ => 0

def exF1 : Mat 1 := fun _ _ => 1

def exActs1 : Fin 1 → ℚ := fun _ => 0

def exN2i1 : List (String × Fin 1) := [("a", 0)]

def exOptsOn : Opts := { show_label := false, show_act := true }

def exResultC7 : Net :=
  (visualize exHost exNetC exF1 exActs1 exA1 exN2i1 exOpts).toOption.getD exNetC

def exOptsC1 : Opts :=
  { show_label := false, show_act := true, fix_act_label := false, fmt_act := "%d%%d" }

def exOptsC1fix : Opts :=
  { show_label := false, show_act := true, fix_act_label := true, fmt_act := "%d%%d" }

def exResultC1 : Net :=
  (visualize exHost exNetC exF1 exActs1 exA1 exN2i1 exOptsC1).toOption.getD exNetC

def exResultC1fix : Net :=
  (visualize exHost exNetC exF1 exActs1 exA1 exN2i1 exOptsC1fix).toOption.getD exNetC

theorem aget_mem {κ β : Type} [DecidableEq κ] {k : κ} {v : β} {l : List (κ × β)}
    (h : aget k l = Option.some v) : (k, v) ∈ l := by
  induction l with
  | nil => cases h
  | cons p rest ih =>
    obtain ⟨k₁, v₁⟩ := p
    by_cases hk : k = k₁
    · rw [aget, if_pos hk] at h
      obtain rfl := Option.some.inj h
      rw [hk]
      exact List.mem_cons_self _ _
    · rw [aget, if_neg hk] at h
      exact List.mem_cons_of_mem _ (ih h)

theorem aget_aset_self {κ β : Type} [DecidableEq κ] (k : κ) (v : β) (l : List (κ × β)) :
    aget k (aset k v l) = Option.some v := by
  induction l with
  | nil => simp [aget, aset]
  | cons p rest ih =>
    by_cases h : k = p.1
    · simp [aset, aget, h]
    · simp [aset, aget, h, ih]

theorem aget_aset_ne {κ β : Type} [DecidableEq κ] {k k₁ : κ} (v : β) (l : List (κ × β))
    (h : k ≠ k₁) : aget k (aset k₁ v l) = aget k l := by
  induction l with
  | nil => simp [aget, aset, h]
  | cons p rest ih =>
    by_cases h₁ : k₁ = p.1
    · subst h₁
      simp [aset, aget, h]
    · by_cases h₂ : k = p.1
      · simp [aset, aget, h₁, h₂]
      · simp [aset, aget, h₁, h₂, ih]

theorem aget_aremove_self {κ β : Type} [DecidableEq κ] (k : κ) (l : List (κ × β)) :
    aget k (aremove k l) = Option.none := by
  induction l with
  | nil => simp [aget, aremove]
  | cons p rest ih =>
    by_cases h : p.1 = k
    · simpa [aremove, h] using ih
    · have h₂ : ¬ k = p.1 := fun hh => h hh.symm
      simpa [aremove, h, aget, h₂] using ih

theorem aget_aremove_ne {κ β : Type} [DecidableEq κ] {k k₁ : κ} (l : List (κ × β))
    (h : k ≠ k₁) : aget k (aremove k₁ l) = aget k l := by
  induction l with
  | nil => simp [aget, aremove]
  | cons p rest ih =>
    by_cases h₂ : k = p.1
    · have h₃ : ¬ p.1 = k₁ := fun hh => h (h₂.trans hh)
      simp [aremove, h₃, aget, h₂]
    · by_cases h₃ : p.1 = k₁
      · simpa [aremove, h₃, aget, h₂, h] using ih
      · simpa [aremove, h₃, aget, h₂] using ih

theorem npClip_mem {x lo hi : ℚ} (h : lo ≤ hi) :
    lo ≤ npClip x lo hi ∧ npClip x lo hi ≤ hi := by
  constructor
  · exact le_min (le_max_right x lo) h
  · exact min_le_right _ _

theorem npClip_le_hi (x lo hi : ℚ) : npClip x lo hi ≤ hi := min_le_right _ _

theorem npClip_of_hi_le {x lo hi : ℚ} (h : hi ≤ x) : npClip x lo hi = hi := by
  have : hi ≤ max x lo := le_trans h (le_max_left x lo)
  simp [npClip, min_eq_right this]

theorem npClip_self_hi (lo hi : ℚ) : npClip hi lo hi = hi := by
  have : hi ≤ max hi lo := le_max_left hi lo
  simp [npClip, min_eq_right this]

theorem qfloor_eq (x : ℚ) : qfloor x = ⌊x⌋ := Rat.floor_def.symm

theorem foldMax_mem (x : ℚ) (xs : List ℚ) : foldMax x xs ∈ x :: xs := by
  induction xs generalizing x with
  | nil => simp [foldMax]
  | cons a as ih =>
    have hstep : foldMax x (a :: as) = foldMax (max x a) as := rfl
    rw [hstep]
    rcases List.mem_cons.mp (ih (max x a)) with h1 | h1
    · rw [h1]
      rcases max_choice x a with h2 | h2
      · rw [h2]
        exact List.mem_cons_self _ _
      · rw [h2]
        exact List.mem_cons_of_mem _ (List.mem_cons_self _ _)
    · exact List.mem_cons_of_mem _ (List.mem_cons_of_mem _ h1)

theorem init_le_foldMax (x : ℚ) (xs : List ℚ) : x ≤ foldMax x xs := by
  induction xs generalizing x with
  | nil => exact le_refl x
  | cons a as ih =>
    have hstep : foldMax x (a :: as) = foldMax (max x a) as := rfl
    rw [hstep]
    exact le_trans (le_max_left x a) (ih (max x a))

theorem le_foldMax {x : ℚ} {xs : List ℚ} {y : ℚ} (hy : y ∈ x :: xs) : y ≤ foldMax x xs := by
  induction xs generalizing x with
  | nil =>
    simp at hy
    simp [foldMax, hy]
  | cons a as ih =>
    have hstep : foldMax x (a :: as) = foldMax (max x a) as := rfl
    rw [hstep]
    rcases List.mem_cons.mp hy with h1 | h1
    · subst h1
      exact le_trans (le_max_left y a) (init_le_foldMax _ _)
    · rcases List.mem_cons.mp h1 with h2 | h2
      · subst h2
        exact le_trans (le_max_right x y) (init_le_foldMax _ _)
      · exact ih (List.mem_cons_of_mem _ h2)

theorem foldMin_mem (x : ℚ) (xs : List ℚ) : foldMin x xs ∈ x :: xs := by
  induction xs generalizing x with
  | nil => simp [foldMin]
  | cons a as ih =>
    have hstep : foldMin x (a :: as) = foldMin (min x a) as := rfl
    rw [hstep]
    rcases List.mem_cons.mp (ih (min x a)) with h1 | h1
    · rw [h1]
      rcases min_choice x a with h2 | h2
      · rw [h2]
        exact List.mem_cons_self _ _
      · rw [h2]
        exact List.mem_cons_of_mem _ (List.mem_cons_self _ _)
    · exact List.mem_cons_of_mem _ (List.mem_cons_of_mem _ h1)

theorem foldMin_le_init (x : ℚ) (xs : List ℚ) : foldMin x xs ≤ x := by
  induction xs generalizing x with
  | nil => exact le_refl x
  | cons a as ih =>
    have hstep : foldMin x (a :: as) = foldMin (min x a) as := rfl
    rw [hstep]
    exact le_trans (ih (min x a)) (min_le_left x a)

theorem foldMin_le {x : ℚ} {xs : List ℚ} {y : ℚ} (hy : y ∈ x :: xs) : foldMin x xs ≤ y := by
  induction xs generalizing x with
  | nil =>
    simp at hy
    simp [foldMin, hy]
  | cons a as ih =>
    have hstep : foldMin x (a :: as) = foldMin (min x a) as := rfl
    rw [hstep]
    rcases List.mem_cons.mp hy with h1 | h1
    · subst h1
      exact le_trans (foldMin_le_init _ _) (min_le_left y a)
    · rcases List.mem_cons.mp h1 with h2 | h2
      · subst h2
        exact le_trans (foldMin_le_init _ _) (min_le_right x y)
      · exact ih (List.mem_cons_of_mem _ h2)

theorem npMaxE_mem {l : List ℚ} {v : ℚ} (h : npMaxE l = Except.ok v) : v ∈ l := by
  cases l with
  | nil => simp [npMaxE] at h
  | cons x xs =>
    simp only [npMaxE, Except.ok.injEq] at h
    subst h
    exact foldMax_mem x xs

theorem le_npMaxE {l : List ℚ} {v y : ℚ} (h : npMaxE l = Except.ok v) (hy : y ∈ l) : y ≤ v := by
  cases l with
  | nil => simp [npMaxE] at h
  | cons x xs =>
    simp only [npMaxE, Except.ok.injEq] at h
    subst h
    exact le_foldMax hy

theorem npMinE_mem {l : List ℚ} {v : ℚ} (h : npMinE l = Except.ok v) : v ∈ l := by
  cases l with
  | nil => simp [npMinE] at h
  | cons x xs =>
    simp only [npMinE, Except.ok.injEq] at h
    subst h
    exact foldMin_mem x xs

theorem npMinE_le {l : List ℚ} {v y : ℚ} (h : npMinE l = Except.ok v) (hy : y ∈ l) : v ≤ y := by
  cases l with
  | nil => simp [npMinE] at h
  | cons x xs =>
    simp only [npMinE, Except.ok.injEq] at h
    subst h
    exact foldMin_le hy

theorem npMinE_le_npMaxE {l : List ℚ} {mn mx : ℚ}
    (hmn : npMinE l = Except.ok mn) (hmx : npMaxE l = Except.ok mx) : mn ≤ mx :=
  npMinE_le hmn (npMaxE_mem hmx)

theorem npPercentileE_ok_shape {l : List ℚ} {p v : ℚ}
    (h : npPercentileE l p = Except.ok v) : l ≠ [] ∧ 0 ≤ p ∧ p ≤ 100 ∧ v = pctVal l p := by
  by_cases hne : l = []
  · simp [npPercentileE, hne] at h
  · by_cases hp : 0 ≤ p ∧ p ≤ 100
    · refine ⟨hne, hp.1, hp.2, ?_⟩
      rw [npPercentileE, if_neg hne, if_neg (not_not_intro hp)] at h
      exact (Except.ok.inj h).symm
    · simp [npPercentileE, hne, hp] at h

theorem npPercentileE_of_valid {l : List ℚ} {p : ℚ} (hne : l ≠ []) (hp : 0 ≤ p ∧ p ≤ 100) :
    npPercentileE l p = Except.ok (pctVal l p) := by
  rw [npPercentileE, if_neg hne, if_neg (not_not_intro hp)]

theorem pctVal_bounds {l : List ℚ} {p mn mx : ℚ}
    (hne : l ≠ []) (hp0 : 0 ≤ p) (hp100 : p ≤ 100)
    (hmn : npMinE l = Except.ok mn) (hmx : npMaxE l = Except.ok mx) :
    mn ≤ pctVal l p ∧ pctVal l p ≤ mx := by
  have hperm : List.Perm (sortedL l) l := List.perm_insertionSort _ l
  have hsort : (sortedL l).Sorted (· ≤ ·) := List.sorted_insertionSort _ l
  have hpos : 1 ≤ (sortedL l).length := by
    rw [hperm.length_eq]
    exact List.length_pos.mpr hne
  have hq0 : 0 ≤ pctIdx l p := by
    apply mul_nonneg (by positivity)
    have : (1 : ℚ) ≤ ((sortedL l).length : ℚ) := by exact_mod_cast hpos
    linarith
  have hq1 : pctIdx l p ≤ ((sortedL l).length : ℚ) - 1 := by
    have h100 : p / 100 ≤ 1 := by
      linarith [div_le_one_of_le₀ hp100 (by norm_num : (0:ℚ) ≤ 100)]
    have hnn : (0 : ℚ) ≤ ((sortedL l).length : ℚ) - 1 := by
      have : (1 : ℚ) ≤ ((sortedL l).length : ℚ) := by exact_mod_cast hpos
      linarith
    calc pctIdx l p ≤ 1 * (((sortedL l).length : ℚ) - 1) :=
          mul_le_mul_of_nonneg_right h100 hnn
      _ = ((sortedL l).length : ℚ) - 1 := one_mul _
  have hfl : ⌊pctIdx l p⌋ ≤ ((sortedL l).length : ℤ) - 1 := by
    have hc : (((sortedL l).length : ℚ) - 1) = ((((sortedL l).length : ℤ) - 1 : ℤ) : ℚ) := by
      push_cast
      ring
    have := Int.floor_le_floor (α := ℚ) (hc ▸ hq1)
    rwa [Int.floor_intCast] at this
  have hfl0 : 0 ≤ ⌊pctIdx l p⌋ := Int.floor_nonneg.mpr hq0
  have hk : pctK l p < (sortedL l).length := by
    unfold pctK
    rw [qfloor_eq]
    omega
  have hj : pctJ l p < (sortedL l).length := by
    unfold pctJ pctK
    rw [qfloor_eq]
    omega
  have hkj : pctK l p ≤ pctJ l p := by
    unfold pctJ pctK
    rw [qfloor_eq]
    omega
  have hab : (sortedL l).getD (pctK l p) 0 ≤ (sortedL l).getD (pctJ l p) 0 := by
    rw [List.getD_eq_getElem _ 0 hk, List.getD_eq_getElem _ 0 hj]
    exact hsort.rel_get_of_le (a := ⟨pctK l p, hk⟩) (b := ⟨pctJ l p, hj⟩) hkj
  have hga : mn ≤ (sortedL l).getD (pctK l p) 0 := by
    rw [List.getD_eq_getElem _ 0 hk]
    exact npMinE_le hmn (hperm.subset (List.getElem_mem hk))
  have hgb : (sortedL l).getD (pctJ l p) 0 ≤ mx := by
    rw [List.getD_eq_getElem _ 0 hj]
    exact le_npMaxE hmx (hperm.subset (List.getElem_mem hj))
  have hg0 : 0 ≤ pctGamma l p := by
    have := Int.floor_le (pctIdx l p)
    unfold pctGamma
    rw [qfloor_eq]
    linarith
  have hg1 : pctGamma l p < 1 := by
    have := Int.lt_floor_add_one (pctIdx l p)
    unfold pctGamma
    rw [qfloor_eq]
    linarith
  unfold pctVal
  constructor
  · nlinarith [mul_nonneg hg0 (sub_nonneg.mpr hab)]
  · nlinarith [mul_nonneg (by linarith : (0:ℚ) ≤ 1 - pctGamma l p) (sub_nonneg.mpr hab)]

theorem pctVal_all_zero {l : List ℚ} {p : ℚ} (h0 : ∀ x ∈ l, x = 0) :
    pctVal l p = 0 := by
  have hz : ∀ n : ℕ, (sortedL l).getD n 0 = 0 := by
    intro n
    rcases lt_or_ge n (sortedL l).length with h | h
    · rw [List.getD_eq_getElem _ 0 h]
      exact h0 _ ((List.perm_insertionSort _ l).subset (List.getElem_mem h))
    · exact List.getD_eq_default _ 0 h
  unfold pctVal
  rw [hz, hz]
  ring

/-! ### Inversion helpers for the Except monad -/

theorem exceptBind_ok {ε α β : Type} {m : Except ε α} {f : α → Except ε β} {b : β} :
    (m >>= f) = Except.ok b ↔ ∃ a, m = Except.ok a ∧ f a = Except.ok b := by
  cases m <;> simp [Bind.bind, Except.bind]

theorem exceptBind_error_left {ε α β : Type} {m : Except ε α} {f : α → Except ε β} {e : ε}
    (h : m = Except.error e) : (m >>= f) = Except.error e := by
  subst h
  rfl

theorem exceptBind_ok_left {ε α β : Type} {m : Except ε α} {f : α → Except ε β} {a : α}
    (h : m = Except.ok a) : (m >>= f) = f a := by
  subst h
  rfl

theorem exceptPure_eq_ok {ε α : Type} (a : α) : (pure a : Except ε α) = Except.ok a := rfl

/-! ### Claim C6: edge-width monotonicity and clamping -/

theorem npClip_mono {x₁ x₂ : ℚ} (lo hi : ℚ) (h : x₁ ≤ x₂) :
    npClip x₁ lo hi ≤ npClip x₂ lo hi :=
  min_le_min (max_le_max h (le_refl lo)) (le_refl hi)

theorem edgeWidthOfLog_mono {x₁ x₂ flow_min flow_max flow_thr lw_min lw_max : ℚ}
    (hlw : lw_min ≤ lw_max) (hf : flow_min ≤ flow_max) (h : x₁ ≤ x₂) :
    edgeWidthOfLog x₁ flow_min flow_max flow_thr lw_min lw_max ≤
      edgeWidthOfLog x₂ flow_min flow_max flow_thr lw_min lw_max := by
  unfold edgeWidthOfLog
  have hc := npClip_mono flow_min flow_thr h
  rcases eq_or_lt_of_le hf with he | hlt
  · rw [he]
    simp [sub_self, div_zero]
  · have hd : 0 < flow_max - flow_min := by linarith
    have h1 : (npClip x₁ flow_min flow_thr - flow_min) / (flow_max - flow_min) ≤
        (npClip x₂ flow_min flow_thr - flow_min) / (flow_max - flow_min) :=
      (div_le_div_iff_of_pos_right hd).mpr (by linarith)
    have h2 := mul_le_mul_of_nonneg_right h1 (by linarith : (0 : ℚ) ≤ lw_max - lw_min)
    linarith

theorem edgeWidthOfLog_clamp {x flow_min flow_max flow_thr lw_min lw_max : ℚ}
    (h : flow_thr ≤ x) :
    edgeWidthOfLog x flow_min flow_max flow_thr lw_min lw_max =
      edgeWidthOfLog flow_thr flow_min flow_max flow_thr lw_min lw_max := by
  unfold edgeWidthOfLog
  rw [npClip_of_hi_le h, npClip_self_hi]

/-- Claim C6: within [flow_min, flow_thr] the edge width assigned by
visualize (the function widthOf of nonzero flow, and its non-degenerate
branch edgeWidthOfLog as a function of the log-flow) is monotonically
non-decreasing in log10 of the absolute flow, and above flow_thr the
width is clamped to its value at flow_thr (in the degenerate branch the
width is constant, hence also clamped). -/
theorem edge_width_monotone_clamped (log10 : ℚ → ℚ)
    (flow_min flow_max flow_thr lw_min lw_max : ℚ)
    (hlw : lw_min ≤ lw_max) (hf : flow_min ≤ flow_max) :
    (∀ f₁ f₂ : ℚ, f₁ ≠ 0 → f₂ ≠ 0 →
      flow_min ≤ log10 |f₁| → log10 |f₁| ≤ log10 |f₂| → log10 |f₂| ≤ flow_thr →
      widthOf log10 f₁ flow_min flow_max flow_thr lw_min lw_max ≤
        widthOf log10 f₂ flow_min flow_max flow_thr lw_min lw_max) ∧
    (∀ x : ℚ, flow_thr ≤ x →
      edgeWidthOfLog x flow_min flow_max flow_thr lw_min lw_max =
        edgeWidthOfLog flow_thr flow_min flow_max flow_thr lw_min lw_max) ∧
    (∀ f₁ f₂ : ℚ, f₁ ≠ 0 → f₂ ≠ 0 → flow_thr ≤ log10 |f₁| → flow_thr ≤ log10 |f₂| →
      widthOf log10 f₁ flow_min flow_max flow_thr lw_min lw_max =
        widthOf log10 f₂ flow_min flow_max flow_thr lw_min lw_max) := by
  refine ⟨?_, ?_, ?_⟩
  · intro f₁ f₂ h₁ h₂ _ hle _
    rw [widthOf, if_neg h₁, widthOf, if_neg h₂]
    by_cases hd : flow_max - flow_min = 0
    · rw [if_pos hd, if_pos hd]
    · rw [if_neg hd, if_neg hd]
      exact edgeWidthOfLog_mono hlw hf hle
  · intro x hx
    exact edgeWidthOfLog_clamp hx
  · intro f₁ f₂ h₁ h₂ hc₁ hc₂
    rw [widthOf, if_neg h₁, widthOf, if_neg h₂]
    by_cases hd : flow_max - flow_min = 0
    · rw [if_pos hd, if_pos hd]
    · rw [if_neg hd, if_neg hd, edgeWidthOfLog_clamp hc₁, edgeWidthOfLog_clamp hc₂]

/-- Witness for C6 at concrete parameters. -/
theorem edge_width_monotone_clamped_witness :
    widthOf (fun x => x) (1 / 2 : ℚ) 0 2 1 1 10 ≤ widthOf (fun x => x) 1 0 2 1 1 10 ∧
    edgeWidthOfLog 5 0 2 1 1 10 = edgeWidthOfLog 1 0 2 1 1 10 ∧
    widthOf (fun x => x) (3 : ℚ) 0 2 1 1 10 = widthOf (fun x => x) 5 0 2 1 1 10 := by
  obtain ⟨hmono, hclamp, hconst⟩ :=
    edge_width_monotone_clamped (fun x => x) 0 2 1 1 10 (by norm_num) (by norm_num)
  refine ⟨hmono (1 / 2) 1 (by norm_num) (by norm_num) ?_ ?_ ?_,
    hclamp 5 (by norm_num), hconst 3 5 (by norm_num) (by norm_num) ?_ ?_⟩ <;>
      simp [abs] <;> norm_num

/-! ### Claim C8: invalid color arguments fail before any mutation -/

theorem resolveColor_invalid {arg : ColorArg} (d : ℤ × ℤ × ℤ) (w : String)
    (ht : truthiness arg ≠ Except.ok false)
    (hq : ∀ r g b, arg ≠ ColorArg.qcolor r g b) :
    ∃ msg, resolveColor arg d w = Except.error (Err.valueError msg) := by
  cases arg with
  | noneArg => exact absurd rfl ht
  | qcolor r g b => exact absurd rfl (hq r g b)
  | ndarray vals =>
    match vals with
    | [] => exact absurd rfl ht
    | [v] =>
      by_cases hv : v = 0
      · subst hv
        exact absurd (by simp [truthiness]) ht
      · exact ⟨w ++ " should be 3-dimensional np.ndarray or QtGui.QColor",
          by simp [resolveColor, truthiness, hv, Bind.bind, Except.bind]⟩
    | _ :: _ :: _ =>
      exact ⟨"The truth value of an array with more than one element is ambiguous. Use a.any() or a.all()",
        by simp [resolveColor, truthiness, Bind.bind, Except.bind]⟩
  | other t =>
    cases t with
    | false => exact absurd rfl ht
    | true =>
      exact ⟨w ++ " should be 3-dimensional np.ndarray or QtGui.QColor",
        by simp [resolveColor, truthiness, Bind.bind, Except.bind]⟩

theorem resolveColor_error_valueError {arg : ColorArg} {d : ℤ × ℤ × ℤ} {w : String} {e : Err}
    (h : resolveColor arg d w = Except.error e) : ∃ msg, e = Err.valueError msg := by
  cases arg with
  | noneArg => simp [resolveColor, truthiness, Bind.bind, Except.bind, exceptPure_eq_ok] at h
  | qcolor r g b => simp [resolveColor, truthiness, Bind.bind, Except.bind, exceptPure_eq_ok] at h
  | ndarray vals =>
    match vals with
    | [] => simp [resolveColor, truthiness, Bind.bind, Except.bind, exceptPure_eq_ok] at h
    | [v] =>
      by_cases hv : v = 0
      · subst hv
        simp [resolveColor, truthiness, Bind.bind, Except.bind, exceptPure_eq_ok] at h
      · simp [resolveColor, truthiness, hv, Bind.bind, Except.bind, exceptPure_eq_ok] at h
        exact ⟨_, h.symm⟩
    | _ :: _ :: _ =>
      simp [resolveColor, truthiness, Bind.bind, Except.bind, exceptPure_eq_ok] at h
      exact ⟨_, h.symm⟩
  | other t =>
    cases t with
    | false => simp [resolveColor, truthiness, Bind.bind, Except.bind, exceptPure_eq_ok] at h
    | true =>
      simp [resolveColor, truthiness, Bind.bind, Except.bind, exceptPure_eq_ok] at h
      exact ⟨_, h.symm⟩

/-- Claim C8: when color_up or color_dn is a non-falsy value that is not a
QColor, visualize raises the invalid-argument ValueError.  The color checks
run before the node, label and edge passes, so in this embedding (where
mutation is the returned Network) an error result means the caller's
Network is untouched: the failure is atomic. -/
theorem visualize_invalid_color_atomic (host : Host) {n : ℕ} (net : Net) (F : Mat n)
    (acts : Fin n → ℚ) (A : Mat n) (n2i : List (String × Fin n)) (opts : Opts)
    (h : (truthiness opts.color_up ≠ Except.ok false ∧
            ∀ r g b, opts.color_up ≠ ColorArg.qcolor r g b) ∨
         (truthiness opts.color_dn ≠ Except.ok false ∧
            ∀ r g b, opts.color_dn ≠ ColorArg.qcolor r g b)) :
    ∃ msg, visualize host net F acts A n2i opts = Except.error (Err.valueError msg) := by
  rcases h with ⟨ht, hq⟩ | ⟨ht, hq⟩
  · obtain ⟨msg, herr⟩ := resolveColor_invalid (255, 0, 0) "color_up" ht hq
    refine ⟨msg, ?_⟩
    unfold visualize
    exact exceptBind_error_left herr
  · obtain ⟨msg, herr⟩ := resolveColor_invalid (0, 0, 255) "color_dn" ht hq
    cases hcu : resolveColor opts.color_up (255, 0, 0) "color_up" with
    | error e =>
      obtain ⟨msg₁, hm⟩ := resolveColor_error_valueError hcu
      refine ⟨msg₁, ?_⟩
      unfold visualize
      rw [exceptBind_error_left (hm ▸ hcu)]
    | ok cu =>
      refine ⟨msg, ?_⟩
      unfold visualize
      rw [exceptBind_ok_left hcu]
      exact exceptBind_error_left herr

/-- Witness for C8: a string-like argument (truthy, not a QColor) makes the
call fail with the invalid-argument ValueError. -/
theorem visualize_invalid_color_atomic_witness :
    ∃ msg,
      visualize ⟨fun _ _ _ => (0, 0), ⟨"F", 9⟩, false, ⟨0, 0, 0, 255⟩, (0, 0), fun _ => 0⟩
        (n := 1) ⟨[], [], []⟩ (fun _ _ => 1) (fun _ => 0) (fun _ _ => 1) [("a", 0)]
        { color_up := ColorArg.other true } = Except.error (Err.valueError msg) :=
  visualize_invalid_color_atomic _ _ _ _ _ _ _
    (Or.inl ⟨by simp [truthiness], fun r g b => by simp⟩)

/-! ### Claim C9: an all-zero flow matrix makes the edge pass fail -/

theorem nonzeroPairs_eq_nil {n : ℕ} {M : Mat n} (h : ∀ i j, M i j = 0) :
    nonzeroPairs M = [] := by
  simp [nonzeroPairs, h]

/-- Claim C9: when every entry of F is zero (while A has a nonzero entry),
the log-flow collection is empty, its numpy max raises the zero-size
ValueError, so update_edges fails and visualize can never return
successfully: a flow matrix with a nonzero entry is an unstated
precondition of the edge pass. -/
theorem visualize_zero_flow_fails (host : Host) {n : ℕ} (A F : Mat n)
    (hF : ∀ i j, F i j = 0) (hA : ∃ i j, A i j ≠ 0) :
    (∀ (net : Net) (i2n : List (Fin n × String)) (pct_edge lw_min lw_max : ℚ),
       update_edges host net A F i2n pct_edge lw_min lw_max =
         Except.error
           (Err.valueError "zero-size array to reduction operation maximum which has no identity")) ∧
    (∀ (net : Net) (acts : Fin n → ℚ) (n2i : List (String × Fin n)) (opts : Opts) (r : Net),
       visualize host net F acts A n2i opts ≠ Except.ok r) := by
  have hlf : logFlows host F = [] := by
    rw [logFlows, nonzeroPairs_eq_nil hF]
    rfl
  have hstats : ∀ pct_edge, flowStats host F pct_edge =
      Except.error
        (Err.valueError "zero-size array to reduction operation maximum which has no identity") := by
    intro pct_edge
    unfold flowStats
    rw [hlf]
    rfl
  have hupd : ∀ (net : Net) (i2n : List (Fin n × String)) (pct_edge lw_min lw_max : ℚ),
      update_edges host net A F i2n pct_edge lw_min lw_max =
        Except.error
          (Err.valueError "zero-size array to reduction operation maximum which has no identity") := by
    intro net i2n pct_edge lw_min lw_max
    unfold update_edges
    exact exceptBind_error_left (hstats pct_edge)
  refine ⟨hupd, ?_⟩
  intro net acts n2i opts r h
  simp only [visualize] at h
  obtain ⟨cu, hcu, h⟩ := exceptBind_ok.mp h
  obtain ⟨cd, hcd, h⟩ := exceptBind_ok.mp h
  obtain ⟨thr, hthr, h⟩ := exceptBind_ok.mp h
  obtain ⟨nl, hnl, h⟩ := exceptBind_ok.mp h
  rw [hupd] at h
  cases h

/-- Witness for C9 at a concrete one-node instance. -/
theorem visualize_zero_flow_fails_witness :
    update_edges ⟨fun _ _ _ => (0, 0), ⟨"F", 9⟩, false, ⟨0, 0, 0, 255⟩, (0, 0), fun _ => 0⟩
        (n := 1) ⟨[], [], []⟩ (fun _ _ => 1) (fun _ _ => 0) [] 90 1 10 =
      Except.error
        (Err.valueError "zero-size array to reduction operation maximum which has no identity") ∧
    visualize ⟨fun _ _ _ => (0, 0), ⟨"F", 9⟩, false, ⟨0, 0, 0, 255⟩, (0, 0), fun _ => 0⟩
        (n := 1) ⟨[], [], []⟩ (fun _ _ => 0) (fun _ => 0) (fun _ _ => 1) [("a", 0)] {} ≠
      Except.ok ⟨[], [], []⟩ := by
  obtain ⟨h1, h2⟩ := visualize_zero_flow_fails
    ⟨fun _ _ _ => (0, 0), ⟨"F", 9⟩, false, ⟨0, 0, 0, 255⟩, (0, 0), fun _ => 0⟩
    (n := 1) (fun _ _ => 1) (fun _ _ => 0) (fun i j => rfl)
    ⟨0, 0, by decide⟩
  exact ⟨h1 ⟨[], [], []⟩ [] 90 1 10, h2 ⟨[], [], []⟩ (fun _ => 0) [("a", 0)] {} ⟨[], [], []⟩⟩

/-! ### Inversion and frame lemmas for the edge pass -/

theorem egetE_ok_iff {k : String × String} {es : Edges} {e : Edge} :
    egetE k es = Except.ok e ↔ aget k es = Option.some e := by
  unfold egetE
  cases aget k es <;> simp

theorem i2nGetE_det {n : ℕ} {i2n : List (Fin n × String)} {i : Fin n} {s t : String}
    (h1 : i2nGetE i2n i = Except.ok s) (h2 : i2nGetE i2n i = Except.ok t) : s = t := by
  rw [h1] at h2
  exact Except.ok.inj h2

theorem processEdgePair_ok_elim {host : Host} {n : ℕ} {A F : Mat n}
    {i2n : List (Fin n × String)} {stats : ℚ × ℚ × ℚ} {lw_min lw_max : ℚ}
    {es es' : Edges} {p : Fin n × Fin n}
    (h : processEdgePair host A F i2n stats lw_min lw_max es p = Except.ok es') :
    ∃ tgt src e hc,
      i2nGetE i2n p.1 = Except.ok tgt ∧
      i2nGetE i2n p.2 = Except.ok src ∧
      aget (src, tgt) es = Option.some e ∧
      headColorOf (F p.1 p.2) (A p.1 p.2) e.head = Except.ok hc ∧
      es' = aset (src, tgt) (edgeUpdate host F stats lw_min lw_max p e hc) es := by
  simp only [processEdgePair] at h
  obtain ⟨tgt, htgt, h⟩ := exceptBind_ok.mp h
  obtain ⟨src, hsrc, h⟩ := exceptBind_ok.mp h
  obtain ⟨e, he, h⟩ := exceptBind_ok.mp h
  obtain ⟨hc, hhc, h⟩ := exceptBind_ok.mp h
  exact ⟨tgt, src, e, hc, htgt, hsrc, egetE_ok_iff.mp he, hhc, (Except.ok.inj h).symm⟩

theorem processEdgePair_frame {host : Host} {n : ℕ} {A F : Mat n}
    {i2n : List (Fin n × String)} {stats : ℚ × ℚ × ℚ} {lw_min lw_max : ℚ}
    {es es' : Edges} {p : Fin n × Fin n} {k : String × String}
    (h : processEdgePair host A F i2n stats lw_min lw_max es p = Except.ok es')
    (hk : ∀ tgt src, i2nGetE i2n p.1 = Except.ok tgt → i2nGetE i2n p.2 = Except.ok src →
      (src, tgt) ≠ k) :
    aget k es' = aget k es := by
  obtain ⟨tgt, src, e, hc, htgt, hsrc, he, hhc, rfl⟩ := processEdgePair_ok_elim h
  exact aget_aset_ne _ _ (fun hkk => hk tgt src htgt hsrc hkk.symm)

theorem edgesFold_frame {host : Host} {n : ℕ} {A F : Mat n}
    {i2n : List (Fin n × String)} {stats : ℚ × ℚ × ℚ} {lw_min lw_max : ℚ}
    {ps : List (Fin n × Fin n)} {es es' : Edges} {k : String × String}
    (h : edgesFold host A F i2n stats lw_min lw_max ps es = Except.ok es')
    (hk : ∀ p ∈ ps, ∀ tgt src, i2nGetE i2n p.1 = Except.ok tgt →
      i2nGetE i2n p.2 = Except.ok src → (src, tgt) ≠ k) :
    aget k es' = aget k es := by
  induction ps generalizing es with
  | nil =>
    simp only [edgesFold] at h
    rw [Except.ok.inj h]
  | cons q qs ih =>
    simp only [edgesFold] at h
    obtain ⟨es₁, hstep, h⟩ := exceptBind_ok.mp h
    have h1 := processEdgePair_frame hstep (hk q (List.mem_cons_self _ _))
    have h2 := ih h (fun p hp => hk p (List.mem_cons_of_mem _ hp))
    rw [h2, h1]

theorem edgesFold_ok_lookup {host : Host} {n : ℕ} {A F : Mat n}
    {i2n : List (Fin n × String)} {stats : ℚ × ℚ × ℚ} {lw_min lw_max : ℚ}
    {ps : List (Fin n × Fin n)} {es es' : Edges} {p : Fin n × Fin n} {tgt src : String}
    (h : edgesFold host A F i2n stats lw_min lw_max ps es = Except.ok es')
    (hmem : p ∈ ps) (hnd : ps.Nodup)
    (hinj : ∀ a b s, i2nGetE i2n a = Except.ok s → i2nGetE i2n b = Except.ok s → a = b)
    (htgt : i2nGetE i2n p.1 = Except.ok tgt) (hsrc : i2nGetE i2n p.2 = Except.ok src) :
    ∃ e hc, aget (src, tgt) es = Option.some e ∧
      headColorOf (F p.1 p.2) (A p.1 p.2) e.head = Except.ok hc ∧
      aget (src, tgt) es' = Option.some (edgeUpdate host F stats lw_min lw_max p e hc) := by
  induction ps generalizing es with
  | nil => cases hmem
  | cons q qs ih =>
    simp only [edgesFold] at h
    obtain ⟨es₁, hstep, h⟩ := exceptBind_ok.mp h
    rcases List.mem_cons.mp hmem with rfl | hmem₁
    · obtain ⟨tgt₁, src₁, e, hc, htgt₁, hsrc₁, he, hhc, hes₁⟩ := processEdgePair_ok_elim hstep
      have et : tgt₁ = tgt := i2nGetE_det htgt₁ htgt
      have esr : src₁ = src := i2nGetE_det hsrc₁ hsrc
      rw [et, esr] at he hes₁
      subst hes₁
      refine ⟨e, hc, he, hhc, ?_⟩
      have hside : ∀ p₁ ∈ qs, ∀ tgt₂ src₂, i2nGetE i2n p₁.1 = Except.ok tgt₂ →
          i2nGetE i2n p₁.2 = Except.ok src₂ → (src₂, tgt₂) ≠ (src, tgt) := by
        intro p₁ hp₁ tgt₂ src₂ ht₂ hs₂ hkeq
        have h1t : tgt₂ = tgt := congrArg Prod.snd hkeq
        have h1s : src₂ = src := congrArg Prod.fst hkeq
        have h1 : p₁.1 = p.1 := hinj _ _ _ (h1t ▸ ht₂) htgt
        have h2 : p₁.2 = p.2 := hinj _ _ _ (h1s ▸ hs₂) hsrc
        have hp : p₁ = p := Prod.ext h1 h2
        subst hp
        exact (List.nodup_cons.mp hnd).1 hp₁
      rw [edgesFold_frame h hside, aget_aset_self]
    · have hside : ∀ tgt₂ src₂, i2nGetE i2n q.1 = Except.ok tgt₂ →
          i2nGetE i2n q.2 = Except.ok src₂ → (src₂, tgt₂) ≠ (src, tgt) := by
        intro tgt₂ src₂ ht₂ hs₂ hkeq
        have h1t : tgt₂ = tgt := congrArg Prod.snd hkeq
        have h1s : src₂ = src := congrArg Prod.fst hkeq
        have h1 : q.1 = p.1 := hinj _ _ _ (h1t ▸ ht₂) htgt
        have h2 : q.2 = p.2 := hinj _ _ _ (h1s ▸ hs₂) hsrc
        have hq : q = p := Prod.ext h1 h2
        subst hq
        exact (List.nodup_cons.mp hnd).1 hmem₁
      have hfr := processEdgePair_frame (k := (src, tgt)) hstep hside
      obtain ⟨e, hc, he, hhc, hres⟩ := ih h hmem₁ (List.nodup_cons.mp hnd).2
      rw [hfr] at he
      exact ⟨e, hc, he, hhc, hres⟩

theorem mem_nonzeroPairs {n : ℕ} {M : Mat n} {p : Fin n × Fin n} :
    p ∈ nonzeroPairs M ↔ M p.1 p.2 ≠ 0 := by
  unfold nonzeroPairs
  rw [List.mem_filter]
  constructor
  · intro h
    simpa using h.2
  · intro h
    refine ⟨?_, by simpa using h⟩
    rcases p with ⟨a, b⟩
    exact List.pair_mem_product.mpr ⟨List.mem_finRange a, List.mem_finRange b⟩

theorem nonzeroPairs_nodup {n : ℕ} (M : Mat n) : (nonzeroPairs M).Nodup :=
  ((List.nodup_finRange n).product (List.nodup_finRange n)).filter _

theorem flowStats_ok_elim {host : Host} {n : ℕ} {F : Mat n} {pct : ℚ} {stats : ℚ × ℚ × ℚ}
    (h : flowStats host F pct = Except.ok stats) :
    npMaxE (logFlows host F) = Except.ok stats.2.1 ∧
    npMinE (logFlows host F) = Except.ok stats.1 ∧
    npPercentileE (logFlows host F) pct = Except.ok stats.2.2 := by
  simp only [flowStats] at h
  obtain ⟨mx, hmx, h⟩ := exceptBind_ok.mp h
  obtain ⟨mn, hmn, h⟩ := exceptBind_ok.mp h
  obtain ⟨thr, hthr, h⟩ := exceptBind_ok.mp h
  obtain rfl : (mn, mx, thr) = stats := Except.ok.inj h
  exact ⟨hmx, hmn, hthr⟩

theorem update_edges_ok_elim {host : Host} {n : ℕ} {net : Net} {A F : Mat n}
    {i2n : List (Fin n × String)} {pct lw_min lw_max : ℚ} {net' : Net}
    (h : update_edges host net A F i2n pct lw_min lw_max = Except.ok net') :
    ∃ stats es', flowStats host F pct = Except.ok stats ∧
      edgesFold host A F i2n stats lw_min lw_max (nonzeroPairs A) net.edges = Except.ok es' ∧
      net' = { net with edges := es' } := by
  simp only [update_edges] at h
  obtain ⟨stats, hs, h⟩ := exceptBind_ok.mp h
  obtain ⟨es', he, h⟩ := exceptBind_ok.mp h
  exact ⟨stats, es', hs, he, (Except.ok.inj h).symm⟩

theorem visualize_ok_elim {host : Host} {n : ℕ} {net : Net} {F : Mat n} {acts : Fin n → ℚ}
    {A : Mat n} {n2i : List (String × Fin n)} {opts : Opts} {net' : Net}
    (h : visualize host net F acts A n2i opts = Except.ok net') :
    ∃ cu cd thr nl,
      resolveColor opts.color_up (255, 0, 0) "color_up" = Except.ok cu ∧
      resolveColor opts.color_dn (0, 0, 255) "color_dn" = Except.ok cd ∧
      actThrE acts opts.pct_act = Except.ok thr ∧
      nodesPass ⟨host, n2i, acts, thr, cu, cd, opts, fontOf opts⟩ net.nodes net.labels =
        Except.ok nl ∧
      update_edges host { net with nodes := nl.1, labels := nl.2 } A F (mkI2n n2i)
        opts.pct_edge opts.lw_min opts.lw_max = Except.ok net' := by
  simp only [visualize] at h
  obtain ⟨cu, hcu, h⟩ := exceptBind_ok.mp h
  obtain ⟨cd, hcd, h⟩ := exceptBind_ok.mp h
  obtain ⟨thr, hthr, h⟩ := exceptBind_ok.mp h
  obtain ⟨nl, hnl, h⟩ := exceptBind_ok.mp h
  exact ⟨cu, cd, thr, nl, hcu, hcd, hthr, hnl, h⟩

/-! ### Claims C2, C3, C10: the edge pass -/

theorem exInj : ∀ (a b : Fin 2) (s : String), i2nGetE (mkI2n exN2i) a = Except.ok s →
    i2nGetE (mkI2n exN2i) b = Except.ok s → a = b := by
  intro a b s ha hb
  fin_cases a <;> fin_cases b <;> simp_all [i2nGetE, mkI2n, exN2i, aget] <;>
    (rw [← ha] at hb; exact absurd hb (by decide))

theorem headColorOf_kind {f a : ℚ} {old : Head} {hc : Head × QColorT}
    (h : headColorOf f a old = Except.ok hc) :
    (0 < f → hc.1.kind = HeadKind.pos) ∧ (f < 0 → hc.1.kind = HeadKind.neg) ∧
    (f = 0 → 0 < a → hc.1.kind = HeadKind.pos) ∧
    (f = 0 → a < 0 → hc.1.kind = HeadKind.neg) := by
  refine ⟨?_, ?_, ?_, ?_⟩
  · intro hf
    rw [headColorOf, if_pos hf] at h
    obtain rfl := Except.ok.inj h
    rfl
  · intro hf
    rw [headColorOf, if_neg (asymm hf), if_pos hf] at h
    obtain rfl := Except.ok.inj h
    rfl
  · intro hf ha
    subst hf
    rw [headColorOf, if_neg (lt_irrefl 0), if_neg (lt_irrefl 0), if_pos ha] at h
    obtain rfl := Except.ok.inj h
    rfl
  · intro hf ha
    subst hf
    rw [headColorOf, if_neg (lt_irrefl 0), if_neg (lt_irrefl 0), if_neg (asymm ha),
      if_pos ha] at h
    obtain rfl := Except.ok.inj h
    rfl

/-- Shared consequence of a successful visualize at a nonzero adjacency
position: the edge at (source, target) was read from the caller's edge
mapping and written back exactly once, as edgeUpdate of its old value. -/
theorem visualize_edge_lookup {host : Host} {n : ℕ} {net : Net} {F : Mat n}
    {acts : Fin n → ℚ} {A : Mat n} {n2i : List (String × Fin n)} {opts : Opts} {net' : Net}
    {i j : Fin n} {tgt src : String}
    (hok : visualize host net F acts A n2i opts = Except.ok net')
    (hA : A i j ≠ 0)
    (hinj : ∀ a b s, i2nGetE (mkI2n n2i) a = Except.ok s →
      i2nGetE (mkI2n n2i) b = Except.ok s → a = b)
    (htgt : i2nGetE (mkI2n n2i) i = Except.ok tgt)
    (hsrc : i2nGetE (mkI2n n2i) j = Except.ok src) :
    ∃ stats e hc, flowStats host F opts.pct_edge = Except.ok stats ∧
      aget (src, tgt) net.edges = Option.some e ∧
      headColorOf (F i j) (A i j) e.head = Except.ok hc ∧
      aget (src, tgt) net'.edges =
        Option.some (edgeUpdate host F stats opts.lw_min opts.lw_max (i, j) e hc) := by
  obtain ⟨cu, cd, thr, nl, _, _, _, _, hupd⟩ := visualize_ok_elim hok
  obtain ⟨stats, es', hstats, hfold, rfl⟩ := update_edges_ok_elim hupd
  have hmem : (i, j) ∈ nonzeroPairs A := mem_nonzeroPairs.mpr hA
  obtain ⟨e, hc, he, hhc, hres⟩ :=
    edgesFold_ok_lookup (p := (i, j)) hfold hmem (nonzeroPairs_nodup A) hinj htgt hsrc
  exact ⟨stats, e, hc, hstats, he, hhc, hres⟩

/-- Claim C2: at every nonzero adjacency position (i, j) the arrowhead
polarity written by visualize is positive for F i j positive, negative for
F i j negative, and for zero flow it falls back to the sign of A i j; and
the sign classification itself (the loop body headColorOf) raises the
uncaught RuntimeError of the source when the value carries neither sign.
Over exact rationals a nonzero A i j always carries a sign, so inside the
loop (which visits only nonzero A entries) that branch is reachable only
through values without a sign such as an IEEE NaN; the classification
clause states it at the loop body, where a signless value is expressible. -/
theorem visualize_arrowhead_polarity {host : Host} {n : ℕ} {net : Net} {F : Mat n}
    {acts : Fin n → ℚ} {A : Mat n} {n2i : List (String × Fin n)} {opts : Opts} {net' : Net}
    {i j : Fin n} {tgt src : String}
    (hok : visualize host net F acts A n2i opts = Except.ok net')
    (hA : A i j ≠ 0)
    (hinj : ∀ a b s, i2nGetE (mkI2n n2i) a = Except.ok s →
      i2nGetE (mkI2n n2i) b = Except.ok s → a = b)
    (htgt : i2nGetE (mkI2n n2i) i = Except.ok tgt)
    (hsrc : i2nGetE (mkI2n n2i) j = Except.ok src) :
    (∃ e', aget (src, tgt) net'.edges = Option.some e' ∧
      (0 < F i j → e'.head.kind = HeadKind.pos) ∧
      (F i j < 0 → e'.head.kind = HeadKind.neg) ∧
      (F i j = 0 → 0 < A i j → e'.head.kind = HeadKind.pos) ∧
      (F i j = 0 → A i j < 0 → e'.head.kind = HeadKind.neg)) ∧
    (∀ (f a : ℚ) (old : Head), ¬ 0 < f → ¬ f < 0 → ¬ 0 < a → ¬ a < 0 →
      headColorOf f a old = Except.error (Err.runtimeError "The logic is abnormal.")) := by
  constructor
  · obtain ⟨stats, e, hc, hstats, he, hhc, hres⟩ :=
      visualize_edge_lookup hok hA hinj htgt hsrc
    obtain ⟨k1, k2, k3, k4⟩ := headColorOf_kind hhc
    exact ⟨edgeUpdate host F stats opts.lw_min opts.lw_max (i, j) e hc, hres, k1, k2, k3, k4⟩
  · intro f a old h1 h2 h3 h4
    rw [headColorOf, if_neg h1, if_neg h2, if_neg h3, if_neg h4]

/-- Witness for C2 at the concrete two-node example of the specification. -/
theorem visualize_arrowhead_polarity_witness :
    (∃ e', aget ("B", "A") exResult.edges = Option.some e' ∧
      (0 < exF 0 1 → e'.head.kind = HeadKind.pos) ∧
      (exF 0 1 < 0 → e'.head.kind = HeadKind.neg) ∧
      (exF 0 1 = 0 → 0 < exA 0 1 → e'.head.kind = HeadKind.pos) ∧
      (exF 0 1 = 0 → exA 0 1 < 0 → e'.head.kind = HeadKind.neg)) ∧
    (∀ (f a : ℚ) (old : Head), ¬ 0 < f → ¬ f < 0 → ¬ 0 < a → ¬ a < 0 →
      headColorOf f a old = Except.error (Err.runtimeError "The logic is abnormal.")) :=
  @visualize_arrowhead_polarity exHost 2 exNet exF exActs exA exN2i exOpts exResult 0 1 "A" "B"
    rfl (by decide) exInj rfl rfl

theorem widthOf_eq_claim (log10 : ℚ → ℚ) (f mn mx thr lmin lmax : ℚ) :
    widthOf log10 f mn mx thr lmin lmax =
      if f = 0 then lmin
      else if mx = mn then (lmin + lmax) / 2
      else (npClip (log10 |f|) mn thr - mn) / (mx - mn) * (lmax - lmin) + lmin := by
  unfold widthOf edgeWidthOfLog
  by_cases h0 : f = 0
  · simp [h0]
  · rw [if_neg h0, if_neg h0]
    by_cases hd : mx - mn = 0
    · rw [if_pos hd, if_pos (sub_eq_zero.mp hd)]
      ring
    · rw [if_neg hd, if_neg (fun hh => hd (by rw [hh, sub_self]))]

/-- Claim C3: the width written by visualize at a nonzero adjacency
position equals lw_min when the flow is zero, the midpoint of the width
bounds when the extremes of the log-flows coincide, and otherwise the
linear interpolation of the clipped log-flow from [flow_min, flow_max]
into [lw_min, lw_max], where flow_max and flow_min are the numpy max and
min of the log-flows and flow_thr their pct_edge percentile. -/
theorem visualize_edge_width_formula {host : Host} {n : ℕ} {net : Net} {F : Mat n}
    {acts : Fin n → ℚ} {A : Mat n} {n2i : List (String × Fin n)} {opts : Opts} {net' : Net}
    {i j : Fin n} {tgt src : String} {mn mx thr : ℚ}
    (hok : visualize host net F acts A n2i opts = Except.ok net')
    (hA : A i j ≠ 0)
    (hinj : ∀ a b s, i2nGetE (mkI2n n2i) a = Except.ok s →
      i2nGetE (mkI2n n2i) b = Except.ok s → a = b)
    (htgt : i2nGetE (mkI2n n2i) i = Except.ok tgt)
    (hsrc : i2nGetE (mkI2n n2i) j = Except.ok src)
    (hmx : npMaxE (logFlows host F) = Except.ok mx)
    (hmn : npMinE (logFlows host F) = Except.ok mn)
    (hthr : npPercentileE (logFlows host F) opts.pct_edge = Except.ok thr) :
    ∃ e', aget (src, tgt) net'.edges = Option.some e' ∧
      e'.width =
        (if F i j = 0 then opts.lw_min
         else if mx = mn then (opts.lw_min + opts.lw_max) / 2
         else (npClip (host.log10 |F i j|) mn thr - mn) / (mx - mn) *
           (opts.lw_max - opts.lw_min) + opts.lw_min) := by
  obtain ⟨stats, e, hc, hstats, he, hhc, hres⟩ := visualize_edge_lookup hok hA hinj htgt hsrc
  have hstats' : flowStats host F opts.pct_edge = Except.ok (mn, mx, thr) := by
    unfold flowStats
    rw [exceptBind_ok_left hmx, exceptBind_ok_left hmn, exceptBind_ok_left hthr]
    rfl
  rw [hstats'] at hstats
  obtain rfl : (mn, mx, thr) = stats := Except.ok.inj hstats
  refine ⟨_, hres, ?_⟩
  show widthOf host.log10 (F i j) mn mx thr opts.lw_min opts.lw_max = _
  exact widthOf_eq_claim host.log10 (F i j) mn mx thr opts.lw_min opts.lw_max

/-- Witness for C3 at the concrete example: a single nonzero flow makes
the log-range degenerate and the width the midpoint. -/
theorem visualize_edge_width_formula_witness :
    ∃ e', aget ("B", "A") exResult.edges = Option.some e' ∧
      e'.width =
        (if exF 0 1 = 0 then exOpts.lw_min
         else if (7 : ℚ) = 7 then (exOpts.lw_min + exOpts.lw_max) / 2
         else (npClip (exHost.log10 |exF 0 1|) 7 7 - 7) / ((7 : ℚ) - 7) *
           (exOpts.lw_max - exOpts.lw_min) + exOpts.lw_min) :=
  @visualize_edge_width_formula exHost 2 exNet exF exActs exA exN2i exOpts exResult 0 1 "A" "B"
    7 7 7 rfl (by decide) exInj rfl rfl rfl rfl rfl

theorem widthOf_mem {log10 : ℚ → ℚ} {f mn mx thr lmin lmax : ℚ}
    (hlw : lmin ≤ lmax) (hmnmx : mn ≤ mx) (h1 : mn ≤ thr) (h2 : thr ≤ mx) :
    lmin ≤ widthOf log10 f mn mx thr lmin lmax ∧ widthOf log10 f mn mx thr lmin lmax ≤ lmax := by
  unfold widthOf
  by_cases h0 : f = 0
  · rw [if_pos h0]
    exact ⟨le_refl _, hlw⟩
  · rw [if_neg h0]
    by_cases hd : mx - mn = 0
    · rw [if_pos hd]
      constructor <;> linarith
    · rw [if_neg hd]
      unfold edgeWidthOfLog
      have hcb := npClip_mem (x := log10 |f|) h1
      have hden : 0 < mx - mn := lt_of_le_of_ne (by linarith) (fun hh => hd hh.symm)
      have ht0 : 0 ≤ (npClip (log10 |f|) mn thr - mn) / (mx - mn) :=
        div_nonneg (by linarith [hcb.1]) (le_of_lt hden)
      have ht1 : (npClip (log10 |f|) mn thr - mn) / (mx - mn) ≤ 1 := by
        rw [div_le_one hden]
        linarith [hcb.2]
      constructor
      · nlinarith [mul_nonneg ht0 (by linarith : (0 : ℚ) ≤ lmax - lmin)]
      · nlinarith [mul_le_mul_of_nonneg_right ht1 (by linarith : (0 : ℚ) ≤ lmax - lmin)]

/-- Claim C10: whenever lw_min is at most lw_max, every edge width written
by a completing edge pass lies in [lw_min, lw_max]: completion forces the
percentile to be defined, the percentile lies between the log-flow
extremes, and the clipped log-flow stays in [flow_min, flow_thr]. -/
theorem visualize_edge_width_in_range {host : Host} {n : ℕ} {net : Net} {F : Mat n}
    {acts : Fin n → ℚ} {A : Mat n} {n2i : List (String × Fin n)} {opts : Opts} {net' : Net}
    {i j : Fin n} {tgt src : String}
    (hok : visualize host net F acts A n2i opts = Except.ok net')
    (hA : A i j ≠ 0)
    (hinj : ∀ a b s, i2nGetE (mkI2n n2i) a = Except.ok s →
      i2nGetE (mkI2n n2i) b = Except.ok s → a = b)
    (htgt : i2nGetE (mkI2n n2i) i = Except.ok tgt)
    (hsrc : i2nGetE (mkI2n n2i) j = Except.ok src)
    (hlw : opts.lw_min ≤ opts.lw_max) :
    ∃ e', aget (src, tgt) net'.edges = Option.some e' ∧
      opts.lw_min ≤ e'.width ∧ e'.width ≤ opts.lw_max := by
  obtain ⟨stats, e, hc, hstats, he, hhc, hres⟩ := visualize_edge_lookup hok hA hinj htgt hsrc
  obtain ⟨hmx, hmn, hthr⟩ := flowStats_ok_elim hstats
  have hmnmx : stats.1 ≤ stats.2.1 := npMinE_le_npMaxE hmn hmx
  obtain ⟨hne, hp0, hp100, hval⟩ := npPercentileE_ok_shape hthr
  have hb := pctVal_bounds hne hp0 hp100 hmn hmx
  rw [← hval] at hb
  have hw := @widthOf_mem host.log10 (F i j) stats.1 stats.2.1 stats.2.2
    opts.lw_min opts.lw_max hlw hmnmx hb.1 hb.2
  exact ⟨_, hres, hw.1, hw.2⟩

/-- Witness for C10 at the concrete example. -/
theorem visualize_edge_width_in_range_witness :
    ∃ e', aget ("B", "A") exResult.edges = Option.some e' ∧
      exOpts.lw_min ≤ e'.width ∧ e'.width ≤ exOpts.lw_max :=
  @visualize_edge_width_in_range exHost 2 exNet exF exActs exA exN2i exOpts exResult 0 1 "A" "B"
    rfl (by decide) exInj rfl rfl (by decide)

/-! ### Inversion lemmas for the node pass -/

theorem update_single_label_name_ok_elim {host : Host} {labels : Labels} {node : Node}
    {fix : Bool} {font : QFontT} {out : Labels × Node}
    (h : update_single_label_name host labels node fix font = Except.ok out) :
    ∃ lab lab₁, aget node.name labels = Option.some lab ∧
      out.1 = aset node.name lab₁ labels ∧
      out.2.fillColor = node.fillColor ∧ out.2.iden = node.iden ∧
      out.2.name = node.name := by
  simp only [update_single_label_name] at h
  cases haget : aget node.name labels with
  | none =>
    rw [haget] at h
    cases h
  | some lab =>
    rw [haget] at h
    simp only [Bind.bind, Except.bind, exceptPure_eq_ok] at h
    obtain rfl := (Except.ok.inj h).symm
    refine ⟨lab, _, rfl, rfl, ?_, ?_, ?_⟩ <;> by_cases hfix : fix <;> simp [hfix]

theorem processNode_ok_elim {n : ℕ} {ctx : NodeCtx n} {labels : Labels} {iden : String}
    {node : Node} {out : Node × Labels}
    (h : processNode ctx labels iden node = Except.ok out) :
    ∃ idx, aget iden ctx.n2i = Option.some idx ∧
      out.1.fillColor =
        fillFormula ctx.color_up ctx.color_dn (ctx.acts idx) (arrT ctx.acts ctx.thr idx) ∧
      out.1.iden = node.iden := by
  simp only [processNode] at h
  cases haget : aget iden ctx.n2i with
  | none =>
    rw [haget] at h
    cases h
  | some idx =>
    rw [haget] at h
    refine ⟨idx, rfl, ?_⟩
    obtain ⟨idx₁, hidx₁, h⟩ := exceptBind_ok.mp h
    obtain rfl : idx = idx₁ := Except.ok.inj hidx₁
    have hiden₁ : (if ¬ ctx.opts.fix_node_size then
        { node with width := 20, height := 20 } else node).iden = node.iden := by
      by_cases hfix : ctx.opts.fix_node_size <;> simp [hfix]
    by_cases hsl : ctx.opts.show_label = true
    · rw [if_pos hsl] at h
      obtain ⟨ln, hln, h⟩ := exceptBind_ok.mp h
      obtain ⟨lab, lab₁, _, _, hfc, hid, _⟩ := update_single_label_name_ok_elim hln
      by_cases hsa : ctx.opts.show_act = true
      · rw [if_pos hsa] at h
        obtain ⟨l₂, hact, h⟩ := exceptBind_ok.mp h
        rw [exceptPure_eq_ok] at h
        obtain rfl := (Except.ok.inj h).symm
        exact ⟨by rw [hfc], by rw [hid]; exact hiden₁⟩
      · rw [if_neg hsa] at h
        obtain ⟨l₂, hact, h⟩ := exceptBind_ok.mp h
        rw [exceptPure_eq_ok] at h
        obtain rfl := (Except.ok.inj h).symm
        exact ⟨by rw [hfc], by rw [hid]; exact hiden₁⟩
    · rw [if_neg hsl] at h
      obtain ⟨ln, hln, h⟩ := exceptBind_ok.mp h
      rw [exceptPure_eq_ok] at hln
      obtain rfl := (Except.ok.inj hln).symm
      by_cases hsa : ctx.opts.show_act = true
      · rw [if_pos hsa] at h
        obtain ⟨l₂, hact, h⟩ := exceptBind_ok.mp h
        rw [exceptPure_eq_ok] at h
        obtain rfl := (Except.ok.inj h).symm
        exact ⟨rfl, hiden₁⟩
      · rw [if_neg hsa] at h
        obtain ⟨l₂, hact, h⟩ := exceptBind_ok.mp h
        rw [exceptPure_eq_ok] at h
        obtain rfl := (Except.ok.inj h).symm
        exact ⟨rfl, hiden₁⟩

theorem nodesPass_fill {n : ℕ} {ctx : NodeCtx n} {nodes : List (String × Node)}
    {labels : Labels} {out : List (String × Node) × Labels}
    (h : nodesPass ctx nodes labels = Except.ok out) :
    ∀ p ∈ out.1, ∃ idx, aget p.1 ctx.n2i = Option.some idx ∧
      p.2.fillColor =
        fillFormula ctx.color_up ctx.color_dn (ctx.acts idx) (arrT ctx.acts ctx.thr idx) := by
  induction nodes generalizing labels out with
  | nil =>
    simp only [nodesPass] at h
    obtain rfl := (Except.ok.inj h).symm
    intro p hp
    cases hp
  | cons q rest ih =>
    obtain ⟨iden, node⟩ := q
    simp only [nodesPass] at h
    obtain ⟨nl, hpn, h⟩ := exceptBind_ok.mp h
    obtain ⟨rl, hrest, h⟩ := exceptBind_ok.mp h
    obtain rfl := (Except.ok.inj h).symm
    intro p hp
    rcases List.mem_cons.mp hp with rfl | hp₁
    · obtain ⟨idx, hidx, hfc, _⟩ := processNode_ok_elim hpn
      exact ⟨idx, hidx, hfc⟩
    · exact ih hrest p hp₁

/-! ### Claims C4 and C5: node fill colors -/

theorem actThrE_ok_elim {n : ℕ} {acts : Fin n → ℚ} {pct_act thr : ℚ}
    (h : actThrE acts pct_act = Except.ok thr) :
    ∃ t₀, npPercentileE ((List.finRange n).map (fun i => |acts i|)) pct_act = Except.ok t₀ ∧
      thr = (if t₀ = 0 then 1 else t₀) := by
  simp only [actThrE] at h
  obtain ⟨t₀, ht₀, h⟩ := exceptBind_ok.mp h
  rw [exceptPure_eq_ok] at h
  exact ⟨t₀, ht₀, (Except.ok.inj h).symm⟩

theorem npInt32_255 : npInt32 255 = 255 := by decide

theorem fillFormula_zero (cu cd : ℤ × ℤ × ℤ) :
    fillFormula cu cd 0 0 = ⟨255, 255, 255, 255⟩ := by
  simp only [fillFormula, lt_irrefl, if_neg (lt_irrefl 0), zero_mul, add_zero]
  rw [npInt32_255]

/-- Claim C4: with an all-zero activity vector, the percentile threshold
is zero, hence replaced by 1, every normalized factor t is 0, and every
node written by a successful visualize is filled pure white. -/
theorem visualize_all_zero_acts_white {host : Host} {n : ℕ} {net : Net} {F : Mat n}
    {acts : Fin n → ℚ} {A : Mat n} {n2i : List (String × Fin n)} {opts : Opts} {net' : Net}
    (hz : ∀ i, acts i = 0)
    (hok : visualize host net F acts A n2i opts = Except.ok net') :
    actThrE acts opts.pct_act = Except.ok 1 ∧
    (∀ i, arrT acts 1 i = 0) ∧
    (∀ p ∈ net'.nodes, p.2.fillColor = ⟨255, 255, 255, 255⟩) := by
  obtain ⟨cu, cd, thr, nl, hcu, hcd, hthr, hnl, hupd⟩ := visualize_ok_elim hok
  obtain ⟨t₀, ht₀, hthr'⟩ := actThrE_ok_elim hthr
  obtain ⟨hne, hp0, hp100, hval⟩ := npPercentileE_ok_shape ht₀
  have ht₀0 : t₀ = 0 := by
    rw [hval]
    exact pctVal_all_zero (by intro x hx; obtain ⟨i, _, rfl⟩ := List.mem_map.mp hx; simp [hz i])
  have hthr1 : thr = 1 := by
    rw [hthr', ht₀0]
    simp
  subst hthr1
  have harr : ∀ i, arrT acts 1 i = 0 := by
    intro i
    simp [arrT, hz i, npClip]
  refine ⟨hthr, harr, ?_⟩
  obtain ⟨stats, es', hstats, hfold, rfl⟩ := update_edges_ok_elim hupd
  intro p hp
  obtain ⟨idx, _, hfc⟩ := nodesPass_fill hnl p hp
  rw [hfc]
  dsimp only
  rw [hz idx, harr idx]
  exact fillFormula_zero cu cd

/-- Witness for C4 at a concrete two-node all-zero-activity run. -/
theorem visualize_all_zero_acts_white_witness :
    actThrE exActs0 exOpts.pct_act = Except.ok 1 ∧
    (∀ i, arrT exActs0 1 i = 0) ∧
    (∀ p ∈ exResult0.nodes, p.2.fillColor = ⟨255, 255, 255, 255⟩) :=
  @visualize_all_zero_acts_white exHost 2 exNet exF exActs0 exA exN2i exOpts exResult0
    (fun i => rfl) rfl

/-- Claim C5: for every node, the fill written by a successful visualize
lies on the segment between white and the resolved color_up (when the
activity is positive) or color_dn (when it is at most zero), with an
interpolation factor in [0, 1]; fillFormula is exactly the truncated
white-to-target interpolation with the target chosen by the sign of the
activity. -/
theorem visualize_fill_on_segment {host : Host} {n : ℕ} {net : Net} {F : Mat n}
    {acts : Fin n → ℚ} {A : Mat n} {n2i : List (String × Fin n)} {opts : Opts} {net' : Net}
    {cu cd : ℤ × ℤ × ℤ}
    (hok : visualize host net F acts A n2i opts = Except.ok net')
    (hcu : resolveColor opts.color_up (255, 0, 0) "color_up" = Except.ok cu)
    (hcd : resolveColor opts.color_dn (0, 0, 255) "color_dn" = Except.ok cd) :
    ∀ p ∈ net'.nodes, ∃ idx t, aget p.1 n2i = Option.some idx ∧ 0 ≤ t ∧ t ≤ 1 ∧
      p.2.fillColor = fillFormula cu cd (acts idx) t := by
  obtain ⟨cu₁, cd₁, thr, nl, hcu₁, hcd₁, hthr, hnl, hupd⟩ := visualize_ok_elim hok
  rw [hcu] at hcu₁
  obtain rfl : cu = cu₁ := Except.ok.inj hcu₁
  rw [hcd] at hcd₁
  obtain rfl : cd = cd₁ := Except.ok.inj hcd₁
  obtain ⟨stats, es', hstats, hfold, rfl⟩ := update_edges_ok_elim hupd
  intro p hp
  obtain ⟨idx, hidx, hfc⟩ := nodesPass_fill hnl p hp
  refine ⟨idx, arrT acts thr idx, hidx, ?_, ?_, hfc⟩
  · exact le_min (le_max_right _ _) (by norm_num)
  · exact min_le_right _ _

/-- Witness for C5 at the concrete two-node example. -/
theorem visualize_fill_on_segment_witness :
    ∃ idx t, aget "A" exN2i = Option.some idx ∧ 0 ≤ t ∧ t ≤ 1 ∧
      ((aget "A" exResult.nodes).getD exNodeA).fillColor =
        fillFormula (255, 0, 0) (0, 0, 255) (exActs idx) t :=
  @visualize_fill_on_segment exHost 2 exNet exF exActs exA exN2i exOpts exResult
    (255, 0, 0) (0, 0, 255) rfl rfl rfl ("A", (aget "A" exResult.nodes).getD exNodeA)
    (aget_mem (by decide))

/-! ### Label-tracking lemmas for the node pass (claims C1 and C7) -/

theorem update_single_label_activity_ok_elim {host : Host} {labels : Labels} {node : Node}
    {activity : ℚ} {fix : Bool} {fmt : String} {font : QFontT} {out : Labels}
    (h : update_single_label_activity host labels node activity fix fmt font = Except.ok out) :
    ∃ lab₁, out = aset (strUpper node.iden ++ "_act") lab₁ labels ∧
      (fix = true →
        ((∃ lab, aget (strUpper node.iden ++ "_act") labels = Option.some lab ∧
           lab₁.font = lab.font ∧ lab₁.textColor = lab.textColor ∧ lab₁.pos = lab.pos) ∨
         aget (strUpper node.iden ++ "_act") labels = Option.none)) := by
  simp only [update_single_label_activity] at h
  obtain ⟨sx, hsx, h⟩ := exceptBind_ok.mp h
  cases hget : aget (strUpper node.iden ++ "_act") labels with
  | none =>
    rw [hget] at h
    obtain ⟨lab₀, hlab₀, h⟩ := exceptBind_ok.mp h
    rw [exceptPure_eq_ok] at h
    exact ⟨_, (Except.ok.inj h).symm, fun _ => Or.inr rfl⟩
  | some lab =>
    rw [hget] at h
    obtain ⟨lab₀, hlab₀, h⟩ := exceptBind_ok.mp h
    obtain ⟨t, ht, hlab₀⟩ := exceptBind_ok.mp hlab₀
    rw [exceptPure_eq_ok] at hlab₀
    obtain rfl := (Except.ok.inj hlab₀).symm
    rw [exceptPure_eq_ok] at h
    refine ⟨_, (Except.ok.inj h).symm, fun hfix => Or.inl ⟨lab, rfl, ?_, ?_, ?_⟩⟩ <;>
      simp [hfix]

theorem processNode_labels_elim {n : ℕ} {ctx : NodeCtx n} {labels : Labels} {iden : String}
    {node : Node} {out : Node × Labels}
    (h : processNode ctx labels iden node = Except.ok out) :
    ∃ (labels₁ : Labels) (node₁ : Node),
      node₁.iden = node.iden ∧
      ((∃ lab lab', aget node.name labels = Option.some lab ∧
          labels₁ = aset node.name lab' labels) ∨ labels₁ = labels) ∧
      ((ctx.opts.show_act = true ∧ ∃ act,
          update_single_label_activity ctx.host labels₁ node₁ act ctx.opts.fix_act_label
            ctx.opts.fmt_act ctx.font = Except.ok out.2) ∨
       (ctx.opts.show_act = false ∧
          out.2 = (match aget (strUpper iden ++ "_act") labels₁ with
            | Option.some _ => aremove (strUpper iden ++ "_act") labels₁
            | Option.none => labels₁))) := by
  simp only [processNode] at h
  cases haget : aget iden ctx.n2i with
  | none =>
    rw [haget] at h
    cases h
  | some idx =>
    rw [haget] at h
    obtain ⟨idx₁, hidx₁, h⟩ := exceptBind_ok.mp h
    obtain rfl : idx = idx₁ := Except.ok.inj hidx₁
    set nd₂ : Node := { (if ¬ ctx.opts.fix_node_size then
        { node with width := 20, height := 20 } else node) with
      fillColor := fillFormula ctx.color_up ctx.color_dn (ctx.acts idx)
        (arrT ctx.acts ctx.thr idx),
      borderWidth := 2, borderColor := ⟨40, 40, 40, 255⟩ } with hnd₂
    have hname₂ : nd₂.name = node.name := by
      rw [hnd₂]
      by_cases hfix : ctx.opts.fix_node_size <;> simp [hfix]
    have hiden₂ : nd₂.iden = node.iden := by
      rw [hnd₂]
      by_cases hfix : ctx.opts.fix_node_size <;> simp [hfix]
    by_cases hsl : ctx.opts.show_label = true
    · rw [if_pos hsl] at h
      obtain ⟨ln, hln, h⟩ := exceptBind_ok.mp h
      obtain ⟨lab, lab', hlab, hset, _, hid, hnm⟩ := update_single_label_name_ok_elim hln
      rw [hname₂] at hlab hset
      by_cases hsa : ctx.opts.show_act = true
      · rw [if_pos hsa] at h
        obtain ⟨l₂, hact, h⟩ := exceptBind_ok.mp h
        rw [exceptPure_eq_ok] at h
        obtain rfl := (Except.ok.inj h).symm
        exact ⟨ln.1, ln.2, by rw [hid, hiden₂], Or.inl ⟨lab, lab', hlab, hset⟩,
          Or.inl ⟨hsa, _, hact⟩⟩
      · rw [if_neg hsa] at h
        obtain ⟨l₂, hact, h⟩ := exceptBind_ok.mp h
        rw [exceptPure_eq_ok] at hact
        rw [exceptPure_eq_ok] at h
        obtain rfl := (Except.ok.inj h).symm
        exact ⟨ln.1, ln.2, by rw [hid, hiden₂], Or.inl ⟨lab, lab', hlab, hset⟩,
          Or.inr ⟨by simpa using hsa, (Except.ok.inj hact).symm⟩⟩
    · rw [if_neg hsl] at h
      obtain ⟨ln, hln, h⟩ := exceptBind_ok.mp h
      rw [exceptPure_eq_ok] at hln
      obtain rfl := (Except.ok.inj hln).symm
      by_cases hsa : ctx.opts.show_act = true
      · rw [if_pos hsa] at h
        obtain ⟨l₂, hact, h⟩ := exceptBind_ok.mp h
        rw [exceptPure_eq_ok] at h
        obtain rfl := (Except.ok.inj h).symm
        exact ⟨labels, nd₂, hiden₂, Or.inr rfl, Or.inl ⟨hsa, _, hact⟩⟩
      · rw [if_neg hsa] at h
        obtain ⟨l₂, hact, h⟩ := exceptBind_ok.mp h
        rw [exceptPure_eq_ok] at hact
        rw [exceptPure_eq_ok] at h
        obtain rfl := (Except.ok.inj h).symm
        exact ⟨labels, nd₂, hiden₂, Or.inr rfl,
          Or.inr ⟨by simpa using hsa, (Except.ok.inj hact).symm⟩⟩

theorem aget_aset_isSome {κ β : Type} [DecidableEq κ] {k k₁ : κ} (v : β) (l : List (κ × β))
    (h : (aget k l).isSome) : (aget k (aset k₁ v l)).isSome := by
  by_cases hkk : k = k₁
  · rw [hkk, aget_aset_self]
    rfl
  · rw [aget_aset_ne _ _ hkk]
    exact h

theorem processNode_absent_step {n : ℕ} {ctx : NodeCtx n} {labels : Labels} {iden : String}
    {node : Node} {out : Node × Labels} {k : String}
    (hsa : ctx.opts.show_act = false)
    (h : processNode ctx labels iden node = Except.ok out)
    (hk : aget k labels = Option.none) :
    aget k out.2 = Option.none := by
  obtain ⟨labels₁, node₁, _, hname, hact⟩ := processNode_labels_elim h
  have hk₁ : aget k labels₁ = Option.none := by
    rcases hname with ⟨lab, lab', hlab, rfl⟩ | rfl
    · by_cases hkey : k = node.name
      · rw [← hkey, hk] at hlab
        cases hlab
      · rw [aget_aset_ne _ _ hkey]
        exact hk
    · exact hk
  rcases hact with ⟨hsa', _⟩ | ⟨_, hout⟩
  · rw [hsa] at hsa'
    cases hsa'
  · rw [hout]
    cases hget : aget (strUpper iden ++ "_act") labels₁ with
    | some lab =>
      by_cases hkey : k = strUpper iden ++ "_act"
      · rw [hkey]
        exact aget_aremove_self _ _
      · rw [aget_aremove_ne _ hkey]
        exact hk₁
    | none => exact hk₁

theorem processNode_removes_step {n : ℕ} {ctx : NodeCtx n} {labels : Labels} {iden : String}
    {node : Node} {out : Node × Labels}
    (hsa : ctx.opts.show_act = false)
    (h : processNode ctx labels iden node = Except.ok out) :
    aget (strUpper iden ++ "_act") out.2 = Option.none := by
  obtain ⟨labels₁, node₁, _, _, hact⟩ := processNode_labels_elim h
  rcases hact with ⟨hsa', _⟩ | ⟨_, hout⟩
  · rw [hsa] at hsa'
    cases hsa'
  · rw [hout]
    cases hget : aget (strUpper iden ++ "_act") labels₁ with
    | some lab => exact aget_aremove_self _ _
    | none => exact hget

theorem processNode_present_step {n : ℕ} {ctx : NodeCtx n} {labels : Labels} {iden : String}
    {node : Node} {out : Node × Labels} {k : String}
    (hsa : ctx.opts.show_act = true)
    (h : processNode ctx labels iden node = Except.ok out)
    (hk : (aget k labels).isSome) :
    (aget k out.2).isSome := by
  obtain ⟨labels₁, node₁, _, hname, hact⟩ := processNode_labels_elim h
  have hk₁ : (aget k labels₁).isSome := by
    rcases hname with ⟨lab, lab', hlab, rfl⟩ | rfl
    · exact aget_aset_isSome _ _ hk
    · exact hk
  rcases hact with ⟨_, act, hupd⟩ | ⟨hsa', _⟩
  · obtain ⟨lab₁, hout, _⟩ := update_single_label_activity_ok_elim hupd
    rw [hout]
    exact aget_aset_isSome _ _ hk₁
  · rw [hsa] at hsa'
    cases hsa'

theorem processNode_creates_step {n : ℕ} {ctx : NodeCtx n} {labels : Labels} {iden : String}
    {node : Node} {out : Node × Labels}
    (hsa : ctx.opts.show_act = true) (hwf : node.iden = iden)
    (h : processNode ctx labels iden node = Except.ok out) :
    (aget (strUpper iden ++ "_act") out.2).isSome := by
  obtain ⟨labels₁, node₁, hid, _, hact⟩ := processNode_labels_elim h
  rcases hact with ⟨_, act, hupd⟩ | ⟨hsa', _⟩
  · obtain ⟨lab₁, hout, _⟩ := update_single_label_activity_ok_elim hupd
    rw [hout, hid, hwf, aget_aset_self]
    rfl
  · rw [hsa] at hsa'
    cases hsa'

theorem processNode_frozen_step {n : ℕ} {ctx : NodeCtx n} {labels : Labels} {iden : String}
    {node : Node} {out : Node × Labels} {k : String} {lab : Label}
    (hsa : ctx.opts.show_act = true) (hfix : ctx.opts.fix_act_label = true)
    (hname : node.name ≠ k)
    (h : processNode ctx labels iden node = Except.ok out)
    (hk : aget k labels = Option.some lab) :
    ∃ lab', aget k out.2 = Option.some lab' ∧
      lab'.font = lab.font ∧ lab'.textColor = lab.textColor ∧ lab'.pos = lab.pos := by
  obtain ⟨labels₁, node₁, _, hnm, hact⟩ := processNode_labels_elim h
  have hk₁ : aget k labels₁ = Option.some lab := by
    rcases hnm with ⟨lab₀, lab', hlab, rfl⟩ | rfl
    · rw [aget_aset_ne _ _ (fun hh => hname hh.symm)]
      exact hk
    · exact hk
  rcases hact with ⟨_, act, hupd⟩ | ⟨hsa', _⟩
  · obtain ⟨lab₁, hout, hfrozen⟩ := update_single_label_activity_ok_elim hupd
    rw [hout]
    by_cases hkey : k = strUpper node₁.iden ++ "_act"
    · rcases hfrozen hfix with ⟨labC, hlabC, hf, ht, hp⟩ | hnone
      · rw [← hkey] at hlabC
        rw [hk₁] at hlabC
        obtain rfl := Option.some.inj hlabC
        refine ⟨lab₁, ?_, hf, ht, hp⟩
        rw [hkey, aget_aset_self]
      · rw [← hkey, hk₁] at hnone
        cases hnone
    · rw [aget_aset_ne _ _ hkey]
      exact ⟨lab, hk₁, rfl, rfl, rfl⟩
  · rw [hsa] at hsa'
    cases hsa'

theorem nodesPass_absent {n : ℕ} {ctx : NodeCtx n} {nodes : List (String × Node)}
    {labels : Labels} {out : List (String × Node) × Labels} {k : String}
    (hsa : ctx.opts.show_act = false)
    (h : nodesPass ctx nodes labels = Except.ok out)
    (hk : aget k labels = Option.none) :
    aget k out.2 = Option.none := by
  induction nodes generalizing labels out with
  | nil =>
    simp only [nodesPass] at h
    obtain rfl := (Except.ok.inj h).symm
    exact hk
  | cons q rest ih =>
    obtain ⟨iden, node⟩ := q
    simp only [nodesPass] at h
    obtain ⟨nl, hpn, h⟩ := exceptBind_ok.mp h
    obtain ⟨rl, hrest, h⟩ := exceptBind_ok.mp h
    obtain rfl := (Except.ok.inj h).symm
    show aget k rl.2 = Option.none
    exact ih hrest (processNode_absent_step hsa hpn hk)

theorem nodesPass_removes_all {n : ℕ} {ctx : NodeCtx n} {nodes : List (String × Node)}
    {labels : Labels} {out : List (String × Node) × Labels}
    (hsa : ctx.opts.show_act = false)
    (h : nodesPass ctx nodes labels = Except.ok out) :
    ∀ p ∈ nodes, aget (strUpper p.1 ++ "_act") out.2 = Option.none := by
  induction nodes generalizing labels out with
  | nil =>
    intro p hp
    cases hp
  | cons q rest ih =>
    obtain ⟨iden, node⟩ := q
    simp only [nodesPass] at h
    obtain ⟨nl, hpn, h⟩ := exceptBind_ok.mp h
    obtain ⟨rl, hrest, h⟩ := exceptBind_ok.mp h
    obtain rfl := (Except.ok.inj h).symm
    intro p hp
    show aget (strUpper p.1 ++ "_act") rl.2 = Option.none
    rcases List.mem_cons.mp hp with rfl | hp₁
    · exact nodesPass_absent hsa hrest (processNode_removes_step hsa hpn)
    · exact ih hrest p hp₁

theorem nodesPass_present {n : ℕ} {ctx : NodeCtx n} {nodes : List (String × Node)}
    {labels : Labels} {out : List (String × Node) × Labels} {k : String}
    (hsa : ctx.opts.show_act = true)
    (h : nodesPass ctx nodes labels = Except.ok out)
    (hk : (aget k labels).isSome) :
    (aget k out.2).isSome := by
  induction nodes generalizing labels out with
  | nil =>
    simp only [nodesPass] at h
    obtain rfl := (Except.ok.inj h).symm
    exact hk
  | cons q rest ih =>
    obtain ⟨iden, node⟩ := q
    simp only [nodesPass] at h
    obtain ⟨nl, hpn, h⟩ := exceptBind_ok.mp h
    obtain ⟨rl, hrest, h⟩ := exceptBind_ok.mp h
    obtain rfl := (Except.ok.inj h).symm
    show (aget k rl.2).isSome = true
    exact ih hrest (processNode_present_step hsa hpn hk)

theorem nodesPass_creates_all {n : ℕ} {ctx : NodeCtx n} {nodes : List (String × Node)}
    {labels : Labels} {out : List (String × Node) × Labels}
    (hsa : ctx.opts.show_act = true)
    (hwf : ∀ p ∈ nodes, p.2.iden = p.1)
    (h : nodesPass ctx nodes labels = Except.ok out) :
    ∀ p ∈ nodes, (aget (strUpper p.1 ++ "_act") out.2).isSome := by
  induction nodes generalizing labels out with
  | nil =>
    intro p hp
    cases hp
  | cons q rest ih =>
    obtain ⟨iden, node⟩ := q
    simp only [nodesPass] at h
    obtain ⟨nl, hpn, h⟩ := exceptBind_ok.mp h
    obtain ⟨rl, hrest, h⟩ := exceptBind_ok.mp h
    obtain rfl := (Except.ok.inj h).symm
    intro p hp
    show (aget (strUpper p.1 ++ "_act") rl.2).isSome = true
    rcases List.mem_cons.mp hp with rfl | hp₁
    · exact nodesPass_present hsa hrest
        (processNode_creates_step hsa (hwf (iden, node) (List.mem_cons_self _ _)) hpn)
    · exact ih (fun r hr => hwf r (List.mem_cons_of_mem _ hr)) hrest p hp₁

theorem nodesPass_frozen {n : ℕ} {ctx : NodeCtx n} {nodes : List (String × Node)}
    {labels : Labels} {out : List (String × Node) × Labels} {k : String} {lab : Label}
    (hsa : ctx.opts.show_act = true) (hfix : ctx.opts.fix_act_label = true)
    (hnames : ∀ p ∈ nodes, p.2.name ≠ k)
    (h : nodesPass ctx nodes labels = Except.ok out)
    (hk : aget k labels = Option.some lab) :
    ∃ lab', aget k out.2 = Option.some lab' ∧
      lab'.font = lab.font ∧ lab'.textColor = lab.textColor ∧ lab'.pos = lab.pos := by
  induction nodes generalizing labels out lab with
  | nil =>
    simp only [nodesPass] at h
    obtain rfl := (Except.ok.inj h).symm
    exact ⟨lab, hk, rfl, rfl, rfl⟩
  | cons q rest ih =>
    obtain ⟨iden, node⟩ := q
    simp only [nodesPass] at h
    obtain ⟨nl, hpn, h⟩ := exceptBind_ok.mp h
    obtain ⟨rl, hrest, h⟩ := exceptBind_ok.mp h
    obtain rfl := (Except.ok.inj h).symm
    obtain ⟨lab₁, hlab₁, hf₁, ht₁, hp₁⟩ := processNode_frozen_step hsa hfix
      (hnames (iden, node) (List.mem_cons_self _ _)) hpn hk
    obtain ⟨lab₂, hlab₂, hf₂, ht₂, hp₂⟩ :=
      ih (fun r hr => hnames r (List.mem_cons_of_mem _ hr)) hrest hlab₁
    show ∃ lab', aget k rl.2 = Option.some lab' ∧
      lab'.font = lab.font ∧ lab'.textColor = lab.textColor ∧ lab'.pos = lab.pos
    exact ⟨lab₂, hlab₂, hf₂.trans hf₁, ht₂.trans ht₁, hp₂.trans hp₁⟩

theorem nodesPass_wf {n : ℕ} {ctx : NodeCtx n} {nodes : List (String × Node)}
    {labels : Labels} {out : List (String × Node) × Labels}
    (h : nodesPass ctx nodes labels = Except.ok out)
    (hwf : ∀ p ∈ nodes, p.2.iden = p.1) :
    ∀ p ∈ out.1, p.2.iden = p.1 := by
  induction nodes generalizing labels out with
  | nil =>
    simp only [nodesPass] at h
    obtain rfl := (Except.ok.inj h).symm
    intro p hp
    cases hp
  | cons q rest ih =>
    obtain ⟨iden, node⟩ := q
    simp only [nodesPass] at h
    obtain ⟨nl, hpn, h⟩ := exceptBind_ok.mp h
    obtain ⟨rl, hrest, h⟩ := exceptBind_ok.mp h
    obtain rfl := (Except.ok.inj h).symm
    intro p hp
    rcases List.mem_cons.mp hp with rfl | hp₁
    · obtain ⟨idx, _, _, hid⟩ := processNode_ok_elim hpn
      exact hid.trans (hwf (iden, node) (List.mem_cons_self _ _))
    · exact ih hrest (fun r hr => hwf r (List.mem_cons_of_mem _ hr)) p hp₁

theorem nodesPass_keys {n : ℕ} {ctx : NodeCtx n} {nodes : List (String × Node)}
    {labels : Labels} {out : List (String × Node) × Labels}
    (h : nodesPass ctx nodes labels = Except.ok out) :
    out.1.map Prod.fst = nodes.map Prod.fst := by
  induction nodes generalizing labels out with
  | nil =>
    simp only [nodesPass] at h
    obtain rfl := (Except.ok.inj h).symm
    rfl
  | cons q rest ih =>
    obtain ⟨iden, node⟩ := q
    simp only [nodesPass] at h
    obtain ⟨nl, hpn, h⟩ := exceptBind_ok.mp h
    obtain ⟨rl, hrest, h⟩ := exceptBind_ok.mp h
    obtain rfl := (Except.ok.inj h).symm
    simp [ih hrest]

/-- Claim C7: a call with show_act false removes every node's
uppercased-identifier-plus-_act label from the Network's label mapping,
and a subsequent successful call with show_act true recreates that label
and registers it back (round trip of the toggle). -/
theorem visualize_show_act_roundtrip {host : Host} {n : ℕ} {net : Net} {F : Mat n}
    {acts : Fin n → ℚ} {A : Mat n} {n2i : List (String × Fin n)} {opts₁ opts₂ : Opts}
    {net₁ : Net}
    (hwf : ∀ p ∈ net.nodes, p.2.iden = p.1)
    (h₁ : opts₁.show_act = false) (h₂ : opts₂.show_act = true)
    (hok₁ : visualize host net F acts A n2i opts₁ = Except.ok net₁) :
    (∀ p ∈ net.nodes, aget (strUpper p.1 ++ "_act") net₁.labels = Option.none) ∧
    (∀ net₂ : Net, visualize host net₁ F acts A n2i opts₂ = Except.ok net₂ →
      ∀ p ∈ net.nodes, (aget (strUpper p.1 ++ "_act") net₂.labels).isSome = true) := by
  obtain ⟨cu, cd, thr, nl, _, _, _, hnl, hupd⟩ := visualize_ok_elim hok₁
  obtain ⟨stats, es₁, _, _, rfl⟩ := update_edges_ok_elim hupd
  have hrm := nodesPass_removes_all h₁ hnl
  constructor
  · intro p hp
    exact hrm p hp
  · intro net₂ hok₂ p hp
    obtain ⟨cu₂, cd₂, thr₂, nl₂, _, _, _, hnl₂, hupd₂⟩ := visualize_ok_elim hok₂
    obtain ⟨stats₂, es₂, _, _, rfl⟩ := update_edges_ok_elim hupd₂
    have hkeys := nodesPass_keys hnl
    have hpmem : p.1 ∈ nl.1.map Prod.fst := by
      rw [hkeys]
      exact List.mem_map_of_mem _ hp
    obtain ⟨q, hq, hq1⟩ := List.mem_map.mp hpmem
    have hwf₁ : ∀ r ∈ nl.1, r.2.iden = r.1 := nodesPass_wf hnl hwf
    have hres := nodesPass_creates_all h₂ hwf₁ hnl₂ q hq
    rw [hq1] at hres
    exact hres

/-- Witness for C7 on a concrete one-node Network carrying an activity
label: the show_act false call removes it, and any successful show_act
true call on the result re-registers it. -/
theorem visualize_show_act_roundtrip_witness :
    (∀ p ∈ exNetC.nodes, aget (strUpper p.1 ++ "_act") exResultC7.labels = Option.none) ∧
    (∀ net₂ : Net,
      visualize exHost exResultC7 exF1 exActs1 exA1 exN2i1 exOptsOn = Except.ok net₂ →
      ∀ p ∈ exNetC.nodes, (aget (strUpper p.1 ++ "_act") net₂.labels).isSome = true) :=
  @visualize_show_act_roundtrip exHost 1 exNetC exF1 exActs1 exA1 exN2i1 exOpts exOptsOn
    exResultC7 (by decide) rfl rfl rfl

/-- Counterexample for C1 as stated: for a node whose activity label
already exists, a successful visualize with show_act true and
fix_act_label false does not leave the label's font unchanged - the font
is reset to the call font (Arial 10) although the label carried Comic 12.
So the geometry and style of an existing activity label are not preserved
regardless of fix_act_label. -/
theorem visualize_act_label_reset_cex :
    aget "A_act" exNetC.labels = Option.some exLab0 ∧
    exLab0.font = ⟨"Comic", 12⟩ ∧
    exOptsC1.fix_act_label = false ∧
    (aget "A_act" exResultC1.labels).map (fun l => l.font) = Option.some ⟨"Arial", 10⟩ ∧
    (aget "A_act" exResultC1.labels).map (fun l => l.font) ≠ Option.some exLab0.font := by
  refine ⟨rfl, rfl, rfl, ?_, ?_⟩ <;> decide

/-- Claim C1 (amended): for every node whose activity label already
exists when visualize is called with show_act true, the label's font,
text color and position are left unchanged when fix_act_label is true
(and no node's name label collides with the activity-label key); the
activity update then writes only the text.  The original claim said this
held regardless of fix_act_label, which the counterexample refutes: with
fix_act_label false the font, text color and position are reset. -/
theorem visualize_existing_act_label_fix_only_text {host : Host} {n : ℕ} {net : Net}
    {F : Mat n} {acts : Fin n → ℚ} {A : Mat n} {n2i : List (String × Fin n)} {opts : Opts}
    {net' : Net} {iden₀ : String} {nd₀ : Node} {lab₀ : Label}
    (hmem : (iden₀, nd₀) ∈ net.nodes)
    (hlab : aget (strUpper nd₀.iden ++ "_act") net.labels = Option.some lab₀)
    (hsa : opts.show_act = true) (hfix : opts.fix_act_label = true)
    (hnames : ∀ p ∈ net.nodes, p.2.name ≠ strUpper nd₀.iden ++ "_act")
    (hok : visualize host net F acts A n2i opts = Except.ok net') :
    ∃ lab', aget (strUpper nd₀.iden ++ "_act") net'.labels = Option.some lab' ∧
      lab'.font = lab₀.font ∧ lab'.textColor = lab₀.textColor ∧ lab'.pos = lab₀.pos := by
  obtain ⟨cu, cd, thr, nl, _, _, _, hnl, hupd⟩ := visualize_ok_elim hok
  obtain ⟨stats, es', _, _, rfl⟩ := update_edges_ok_elim hupd
  exact nodesPass_frozen hsa hfix hnames hnl hlab

/-- Witness for the amended C1: with fix_act_label true the existing
label keeps its font, color and position through a successful call. -/
theorem visualize_existing_act_label_fix_only_text_witness :
    ∃ lab', aget (strUpper exNodeC.iden ++ "_act") exResultC1fix.labels = Option.some lab' ∧
      lab'.font = exLab0.font ∧ lab'.textColor = exLab0.textColor ∧ lab'.pos = exLab0.pos :=
  @visualize_existing_act_label_fix_only_text exHost 1 exNetC exF1 exActs1 exA1 exN2i1
    exOptsC1fix exResultC1fix "a" exNodeC exLab0 (by decide) rfl rfl rfl (by decide) rfl

end SFV
